import Mathlib

set_option maxHeartbeats 1000000
set_option maxRecDepth 10000

/-!
Verification of the process-builder module of the repository, a shallow
embedding of src/cargo/util/process_builder.rs.

Bytes are modelled as natural numbers (a line feed is 10, a carriage return
is 13).  The UTF-8 lossy decoding step of the streaming path is modelled as
the identity on bytes: it never moves or removes the byte 10 or the byte 13,
so line boundaries are unaffected, and on valid UTF-8 it is exactly the
identity.  User callbacks are modelled as pure state machines over an
arbitrary state type, returning an arbitrary error type.
-/

namespace Cargo

/-- Exit status of a finished process: the raw exit code together with the
platform success flag, as used through std::process::ExitStatus. -/
structure ExitStatus where
  code : Int
  success : Bool
  deriving DecidableEq

/-- Captured output of a process, as in std::process::Output: the two
capture buffers (byte lists) and the exit status. -/
structure Output where
  stdout : List Nat
  stderr : List Nat
  status : ExitStatus
  deriving DecidableEq

/-- The typed failures produced by the module, mirroring the process_error
values built at each failure site: a spawn or wait failure carries neither
an exit status nor an output; a recorded callback failure carries the user
error, the exit status, and (when capturing) the Output; a non-zero exit
carries the exit status and (when capturing) the Output. -/
inductive ExecError (ε : Type) where
  | spawnFailure : ExecError ε
  | callbackFailure : ε → ExitStatus → Option Output → ExecError ε
  | nonZeroExit : ExitStatus → Option Output → ExecError ε
  deriving DecidableEq

/-- The exit-status component attached to a failure, mirroring the second
argument of process_error at each construction site. -/
def ExecError.exitStatus : ExecError ε → Option ExitStatus
  | ExecError.spawnFailure => none
  | ExecError.callbackFailure _ s _ => some s
  | ExecError.nonZeroExit s _ => some s

/-- The Output component attached to a failure, mirroring the third
argument of process_error at each construction site. -/
def ExecError.attachedOutput : ExecError ε → Option Output
  | ExecError.spawnFailure => none
  | ExecError.callbackFailure _ _ o => o
  | ExecError.nonZeroExit _ o => o

/-- Model of the ProcessBuilder struct.  The jobserver Client is opaque to
this module and modelled by a presence flag.  The env overlay (a BTreeMap
in the source) maps a variable name to: none (never touched by the
overlay), some none (explicitly unset), or some (some v) (explicitly set
to v). -/
structure ProcessBuilder where
  program : String
  args : List String
  env : String → Option (Option String)
  cwd : Option String
  jobserver : Option Unit
  display_env_vars : Bool

/-- The process helper function: a fresh builder with no args, an empty
env overlay, no cwd, no jobserver and display disabled. -/
def process (cmd : String) : ProcessBuilder :=
  { program := cmd, args := [], env := fun _ => none, cwd := none,
    jobserver := none, display_env_vars := false }

/-- ProcessBuilder::arg, appending a single argument. -/
def ProcessBuilder.arg (b : ProcessBuilder) (a : String) : ProcessBuilder :=
  { b with args := b.args ++ [a] }

/-- ProcessBuilder::args, appending a batch of arguments.  (Named addArgs
here because the field named args already takes that name.) -/
def ProcessBuilder.addArgs (b : ProcessBuilder) (as : List String) : ProcessBuilder :=
  { b with args := b.args ++ as }

/-- ProcessBuilder::args_replace, replacing the whole argument list. -/
def ProcessBuilder.args_replace (b : ProcessBuilder) (as : List String) : ProcessBuilder :=
  { b with args := as }

/-- ProcessBuilder::env, inserting an explicit value into the overlay.
(Named env_set here because the field named env already takes that name.) -/
def ProcessBuilder.env_set (b : ProcessBuilder) (key val : String) : ProcessBuilder :=
  { b with env := fun k => if k = key then some (some val) else b.env k }

/-- ProcessBuilder::env_remove, inserting an explicit unset marker into the
overlay. -/
def ProcessBuilder.env_remove (b : ProcessBuilder) (key : String) : ProcessBuilder :=
  { b with env := fun k => if k = key then some none else b.env k }

/-- ProcessBuilder::get_env: the overlay entry is consulted first and only
when the variable was never touched does lookup fall back to the ambient
environment (the amb parameter); the final and_then collapses an explicit
unset marker to none. -/
def ProcessBuilder.get_env (b : ProcessBuilder) (amb : String → Option String)
    (var : String) : Option String :=
  ((b.env var).orElse (fun _ => some (amb var))).bind id

/-- ProcessBuilder::wrapped: a missing wrapper or an empty wrapper returns
the builder unchanged; otherwise the wrapper becomes the program and the
old program is prepended to the args. -/
def ProcessBuilder.wrapped (b : ProcessBuilder) (wrapper : Option String) : ProcessBuilder :=
  match wrapper with
  | none => b
  | some w =>
    if w = "" then b
    else { b with program := w, args := b.program :: b.args }

/-- ProcessBuilder::exec, the wait-only mode.  The spawn-and-wait effect is
abstracted as its result: either an IO error (the process could not be
spawned or waited on) or the exit status of the finished process. -/
def exec (spawnResult : Except Unit ExitStatus) : Except (ExecError Unit) Unit :=
  match spawnResult with
  | Except.error _ => Except.error ExecError.spawnFailure
  | Except.ok exit =>
    if exit.success then Except.ok ()
    else Except.error (ExecError.nonZeroExit exit none)

/-- An overlay mutation: either an explicit set or an explicit unset. -/
inductive EnvOp where
  | set (key val : String)
  | remove (key : String)

/-- The variable name an overlay mutation targets. -/
def EnvOp.key : EnvOp → String
  | EnvOp.set k _ => k
  | EnvOp.remove k => k

/-- Apply a sequence of overlay mutations (env / env_remove calls) in
order. -/
def applyEnvOps (b : ProcessBuilder) : List EnvOp → ProcessBuilder
  | [] => b
  | EnvOp.set k v :: rest => applyEnvOps (b.env_set k v) rest
  | EnvOp.remove k :: rest => applyEnvOps (b.env_remove k) rest

/-- Whether some mutation in the sequence targets the variable x. -/
def envTouches (ops : List EnvOp) (x : String) : Bool :=
  ops.any (fun op => op.key == x)

/-- An argument-list mutation: single append, batch append, or full
replacement. -/
inductive ArgOp where
  | arg (a : String)
  | args (as : List String)
  | args_replace (as : List String)

/-- Apply a sequence of argument-list mutations in order. -/
def applyArgOps (b : ProcessBuilder) : List ArgOp → ProcessBuilder
  | [] => b
  | ArgOp.arg a :: rest => applyArgOps (b.arg a) rest
  | ArgOp.args as :: rest => applyArgOps (b.addArgs as) rest
  | ArgOp.args_replace as :: rest => applyArgOps (b.args_replace as) rest

/-- The concatenation, in call order, of all arguments appended by a
sequence of mutations. -/
def appendedArgs : List ArgOp → List String
  | [] => []
  | ArgOp.arg a :: rest => a :: appendedArgs rest
  | ArgOp.args as :: rest => as ++ appendedArgs rest
  | ArgOp.args_replace as :: rest => as ++ appendedArgs rest

/-- Whether the sequence contains no full replacement. -/
def noReplace (ops : List ArgOp) : Bool :=
  ops.all (fun op =>
    match op with
    | ArgOp.args_replace _ => false
    | _ => true)

/-- The rposition combinator on byte lists: index of the last element
satisfying the predicate, as used on the chunk buffer to find the last
line-feed byte. -/
def rposition (p : Nat → Bool) : List Nat → Option Nat
  | [] => none
  | b :: rest =>
    match rposition p rest with
    | some i => some (i + 1)
    | none => if p b then some 0 else none

/-- The split index chosen by the streaming per-chunk handler: the whole
buffer at end of stream, otherwise one past the last line-feed byte, and
nothing when the buffer holds no line-feed byte. -/
def splitIdx (eof : Bool) (data : List Nat) : Option Nat :=
  if eof then some data.length
  else
    match rposition (fun b => b == 10) data with
    | some i => some (i + 1)
    | none => none

/-- The split_inclusive decomposition on the line-feed byte: the pieces of
the list, each ending with a line feed except possibly the last. -/
def splitInclusiveNl : List Nat → List (List Nat)
  | [] => []
  | b :: rest =>
    if b = 10 then [10] :: splitInclusiveNl rest
    else
      match splitInclusiveNl rest with
      | [] => [[b]]
      | p :: ps => (b :: p) :: ps

/-- Drop one leading carriage return, used on the reversed piece to strip
the carriage return of a carriage-return line-feed terminator. -/
def stripCr (l : List Nat) : List Nat :=
  match l with
  | c :: rest => if c = 13 then rest else l
  | [] => []

/-- The per-piece map of the lines iterator: strip one trailing line feed
and, when one was stripped, one carriage return just before it. -/
def lineMap (l : List Nat) : List Nat :=
  match l.reverse with
  | b :: rest => if b = 10 then (stripCr rest).reverse else l
  | [] => l

/-- The lines of a byte region, as the lines iterator over the lossy
decoding yields them (decoding modelled as the identity on bytes; it never
moves a line-feed or carriage-return byte, so the split positions are
exact). -/
def lossyLines (r : List Nat) : List (List Nat) :=
  (splitInclusiveNl r).map lineMap

/-- Rejoin lines, writing the line terminator after each line. -/
def joinLines (ls : List (List Nat)) : List Nat :=
  (ls.map (fun l => l ++ [10])).flatten

/-- Whether a byte list ends with a line feed. -/
def endsNl : List Nat → Bool
  | [] => false
  | [b] => b == 10
  | _ :: rest => endsNl rest

/-- Whether a byte list holds no line feed before its last position. -/
def innerNoNl : List Nat → Bool
  | [] => true
  | [_] => true
  | b :: rest => b != 10 && innerNoNl rest

/-- Modelled from the claim wording of C4: the prefix of a buffer up to and
including its last line terminator (empty when no terminator occurs). -/
def prefixThroughLastNl (l : List Nat) : List Nat :=
  match rposition (fun b => b == 10) l with
  | some i => l.take (i + 1)
  | none => []

/-- The pair of user line callbacks.  Callbacks are FnMut closures in the
source; they are modelled as pure transition functions over one shared
mutable-state type σ, returning the new state and an Except result. -/
structure StreamCallbacks (σ ε : Type) where
  on_stdout_line : σ → List Nat → σ × Except ε Unit
  on_stderr_line : σ → List Nat → σ × Except ε Unit

/-- Whether an Except result is a success. -/
def exceptIsOk : Except ε Unit → Bool
  | Except.ok _ => true
  | Except.error _ => false

instance exceptDecEq [DecidableEq ε] [DecidableEq α] : DecidableEq (Except ε α) := fun x y =>
  match x, y with
  | Except.ok a, Except.ok b =>
    if h : a = b then isTrue (by rw [h])
    else isFalse (by intro hc; injection hc; contradiction)
  | Except.error a, Except.error b =>
    if h : a = b then isTrue (by rw [h])
    else isFalse (by intro hc; injection hc; contradiction)
  | Except.ok _, Except.error _ => isFalse (fun hc => Except.noConfusion hc)
  | Except.error _, Except.ok _ => isFalse (fun hc => Except.noConfusion hc)

/-- The mutable state of one exec_with_streaming invocation: the two
pending-bytes working buffers maintained by the multiplexer, the two
capture buffers (the stdout and stderr vectors of the source), the
callback state, the first recorded callback error, and the history of
callback invocations (stream flag, line, returned result), recorded for
specification purposes. -/
structure ExecState (σ ε : Type) where
  outBuf : List Nat
  errBuf : List Nat
  stdout : List Nat
  stderr : List Nat
  cbState : σ
  callback_error : Option ε
  trace : List (Bool × List Nat × Except ε Unit)
  deriving DecidableEq

/-- Invoke the callback matching the stream: the stdout callback for the
primary stream, the stderr callback for the other. -/
def callLine (cb : StreamCallbacks σ ε) (is_out : Bool) (s : σ)
    (line : List Nat) : σ × Except ε Unit :=
  if is_out then cb.on_stdout_line s line else cb.on_stderr_line s line

/-- The for-loop over extracted lines: while no callback error has been
recorded, invoke the matching callback and record a returned error as the
first callback error; once an error is recorded the loop stops invoking
callbacks (the break in the source). -/
def dispatchLines (cb : StreamCallbacks σ ε) (is_out : Bool) :
    List (List Nat) → ExecState σ ε → ExecState σ ε
  | [], st => st
  | line :: rest, st =>
    if st.callback_error.isSome then st
    else
      let r := callLine cb is_out st.cbState line
      dispatchLines cb is_out rest
        { st with
          cbState := r.1
          trace := st.trace ++ [(is_out, line, r.2)]
          callback_error :=
            match r.2 with
            | Except.error e => some e
            | Except.ok _ => st.callback_error }

/-- The per-chunk handler passed to the multiplexer, acting on the working
buffer of the indicated stream: choose the split index (returning at once
when there is none), with capture enabled drain the consumed range into
the capture buffer and dispatch its lines, with capture disabled dispatch
the lines of the consumed range and then drain it from the working buffer
regardless of the callback outcome. -/
def handleChunk (capture_output : Bool) (cb : StreamCallbacks σ ε)
    (st : ExecState σ ε) (is_out : Bool) (eof : Bool) : ExecState σ ε :=
  let data := if is_out then st.outBuf else st.errBuf
  match splitIdx eof data with
  | none => st
  | some idx =>
    let new_lines := data.take idx
    let st1 :=
      if capture_output then
        if is_out then
          { st with stdout := st.stdout ++ new_lines, outBuf := data.drop idx }
        else
          { st with stderr := st.stderr ++ new_lines, errBuf := data.drop idx }
      else st
    let st2 := dispatchLines cb is_out (lossyLines new_lines) st1
    if capture_output then st2
    else if is_out then { st2 with outBuf := data.drop idx }
    else { st2 with errBuf := data.drop idx }

/-- One delivery of the multiplexer: the stream it concerns, the newly
arrived bytes, and whether this stream has reached end of stream. -/
structure Ev where
  is_out : Bool
  bytes : List Nat
  eof : Bool
  deriving DecidableEq

/-- One multiplexer delivery: append the arrived bytes to the working
buffer of the stream, then run the per-chunk handler. -/
def stepEv (capture_output : Bool) (cb : StreamCallbacks σ ε)
    (st : ExecState σ ε) (e : Ev) : ExecState σ ε :=
  let st0 :=
    if e.is_out then { st with outBuf := st.outBuf ++ e.bytes }
    else { st with errBuf := st.errBuf ++ e.bytes }
  handleChunk capture_output cb st0 e.is_out e.eof

/-- The state at the start of an invocation: empty buffers, no recorded
callback error, an empty history. -/
def initState (s0 : σ) : ExecState σ ε :=
  { outBuf := [], errBuf := [], stdout := [], stderr := [], cbState := s0,
    callback_error := none, trace := [] }

/-- Drive the multiplexer to completion over a sequence of deliveries. -/
def runEvents (capture_output : Bool) (cb : StreamCallbacks σ ε) (s0 : σ)
    (evs : List Ev) : ExecState σ ε :=
  evs.foldl (stepEv capture_output cb) (initState s0)

/-- The result composition after the process has been waited on: build the
Output from the capture buffers and the exit status; a recorded callback
failure is reported first (with the Output attached when capturing), then
a non-zero exit (with the Output attached when capturing), else success. -/
def composeResult (capture_output : Bool) (st : ExecState σ ε)
    (status : ExitStatus) : Except (ExecError ε) Output :=
  let output : Output := { stdout := st.stdout, stderr := st.stderr, status := status }
  let to_print := if capture_output then some output else none
  match st.callback_error with
  | some e => Except.error (ExecError.callbackFailure e status to_print)
  | none =>
    if status.success then Except.ok output
    else Except.error (ExecError.nonZeroExit status to_print)

/-- ProcessBuilder::exec_with_streaming.  The spawn, the multiplexed read
and the wait are abstracted as their combined result: an IO error (the
chain_err path producing the spawn failure), or the multiplexer deliveries
together with the exit status the final wait returns. -/
def exec_with_streaming (capture_output : Bool) (cb : StreamCallbacks σ ε)
    (s0 : σ) (io : Except Unit (List Ev × ExitStatus)) : Except (ExecError ε) Output :=
  match io with
  | Except.error _ => Except.error ExecError.spawnFailure
  | Except.ok (evs, status) =>
    composeResult capture_output (runEvents capture_output cb s0 evs) status

/-- The lines of the invocation history that were passed to the callback
of the indicated stream, in order. -/
def linesOf (flag : Bool) (t : List (Bool × List Nat × Except ε Unit)) : List (List Nat) :=
  (t.filter (fun x => x.1 == flag)).map (fun x => x.2.1)

/-- The capture buffer of the indicated stream. -/
def capOf (flag : Bool) (st : ExecState σ ε) : List Nat :=
  if flag then st.stdout else st.stderr

/-- The working buffer of the indicated stream. -/
def bufOf (flag : Bool) (st : ExecState σ ε) : List Nat :=
  if flag then st.outBuf else st.errBuf

/-- The deliveries concerning the indicated stream. -/
def streamEvs (flag : Bool) (evs : List Ev) : List Ev :=
  evs.filter (fun e => e.is_out == flag)

/-- Whether an end-of-stream delivery occurs only in the final position of
a one-stream delivery sequence. -/
def eofLastB : List Ev → Bool
  | [] => true
  | e :: rest => if e.eof then rest.isEmpty else eofLastB rest

/-- The multiplexer contract on deliveries: for each stream, end of stream
is signalled at most once and no delivery for that stream follows it. -/
def wfEvents (evs : List Ev) : Bool :=
  eofLastB (streamEvs true evs) && eofLastB (streamEvs false evs)

/-- Callbacks that always succeed, with a unit state. -/
def cbAlwaysOk : StreamCallbacks Unit Unit :=
  { on_stdout_line := fun s _ => (s, Except.ok ()),
    on_stderr_line := fun s _ => (s, Except.ok ()) }

/-- Callbacks that always fail, with a unit state. -/
def cbAlwaysErr : StreamCallbacks Unit Unit :=
  { on_stdout_line := fun s _ => (s, Except.error ()),
    on_stderr_line := fun s _ => (s, Except.error ()) }

/-- Callbacks that fail exactly on their second invocation (counting both
streams together), with a counter state. -/
def cbErrOnSecond : StreamCallbacks Nat Unit :=
  { on_stdout_line := fun s _ =>
      (s + 1, if s = 1 then Except.error () else Except.ok ()),
    on_stderr_line := fun s _ =>
      (s + 1, if s = 1 then Except.error () else Except.ok ()) }

/-- Every invocation in the history returned success. -/
def okTrace (t : List (Bool × List Nat × Except ε Unit)) : Prop :=
  ∀ x ∈ t, exceptIsOk x.2.2 = true

/-- The relation between the recorded first callback error and the
invocation history: with no recorded error every invocation succeeded;
with a recorded error the failing invocation is the last one in the whole
history and every earlier invocation succeeded. -/
def errLastInvP (ce : Option ε) (t : List (Bool × List Nat × Except ε Unit)) : Prop :=
  match ce with
  | none => okTrace t
  | some _ => ∃ t0 x, t = t0 ++ [x] ∧ exceptIsOk x.2.2 = false ∧ okTrace t0

/-- No line of the invocation history contains a line-feed byte. -/
def traceNoNl (t : List (Bool × List Nat × Except ε Unit)) : Prop :=
  ∀ x ∈ t, 10 ∉ x.2.1

theorem env_untouched_stays_none (x : String) :
    ∀ (ops : List EnvOp) (b : ProcessBuilder), envTouches ops x = false →
      b.env x = none → (applyEnvOps b ops).env x = none := by
  intro ops
  induction ops with
  | nil =>
    intro b _ hb
    simpa [applyEnvOps] using hb
  | cons op rest ih =>
    intro b h hb
    have h2 : (op.key == x) = false ∧ envTouches rest x = false := by
      simpa [envTouches, Bool.or_eq_false_iff] using h
    have hk : op.key ≠ x := by
      intro he
      simp [he] at h2
    cases op with
    | set k v =>
      have hx : x ≠ k := fun he => hk (by simpa [EnvOp.key] using he.symm)
      refine ih (b.env_set k v) h2.2 ?_
      simpa [ProcessBuilder.env_set, hx] using hb
    | remove k =>
      have hx : x ≠ k := fun he => hk (by simpa [EnvOp.key] using he.symm)
      refine ih (b.env_remove k) h2.2 ?_
      simpa [ProcessBuilder.env_remove, hx] using hb

/-- C6: after env_remove(X), regardless of the prior state of the builder
(in particular of any earlier env(X, v) calls), get_env(X) is none, never a
previously overlaid value and never the ambient value; and when X was never
touched by the overlay, get_env(X) is exactly the ambient lookup (which may
itself be none). -/
theorem env_unset_wins (amb : String → Option String) (b : ProcessBuilder)
    (x p : String) (ops : List EnvOp) :
    (b.env_remove x).get_env amb x = none ∧
    (envTouches ops x = false →
      (applyEnvOps (process p) ops).get_env amb x = amb x) := by
  constructor
  · simp [ProcessBuilder.get_env, ProcessBuilder.env_remove, Option.orElse]
  · intro h
    have hnone : (applyEnvOps (process p) ops).env x = none :=
      env_untouched_stays_none x ops (process p) h rfl
    simp [ProcessBuilder.get_env, hnone, Option.orElse]

theorem env_unset_wins_witness :
    (((process ("p")).env_set ("X") ("v")).env_remove ("X")).get_env
        (fun _ => some ("ambient")) ("X") = none ∧
    (applyEnvOps (process ("p")) [EnvOp.set ("Y") ("w")]).get_env
        (fun _ => some ("ambient")) ("X") = some ("ambient") :=
  ⟨(env_unset_wins (fun _ => some ("ambient"))
      ((process ("p")).env_set ("X") ("v")) ("X") ("p")
      [EnvOp.set ("Y") ("w")]).1,
   (env_unset_wins (fun _ => some ("ambient"))
      ((process ("p")).env_set ("X") ("v")) ("X") ("p")
      [EnvOp.set ("Y") ("w")]).2 (by decide)⟩

/-- C7: wrapping with a non-empty wrapper makes the wrapper the program and
prepends the old program to the args, leaving every other field unchanged;
wrapping with none or with the empty string is the identity. -/
theorem wrapped_spec (b : ProcessBuilder) (w : String) :
    (w ≠ "" → b.wrapped (some w) =
      { b with program := w, args := b.program :: b.args }) ∧
    b.wrapped none = b ∧ b.wrapped (some ("")) = b := by
  refine ⟨?_, rfl, ?_⟩
  · intro h
    simp [ProcessBuilder.wrapped, h]
  · simp [ProcessBuilder.wrapped]

theorem wrapped_spec_witness :
    ((process ("rustc")).arg ("a")).wrapped (some ("sccache")) =
      { (process ("rustc")).arg ("a") with
        program := "sccache"
        args := ((process ("rustc")).arg ("a")).program ::
          ((process ("rustc")).arg ("a")).args } :=
  (wrapped_spec ((process ("rustc")).arg ("a")) ("sccache")).1 (by decide)

/-- C8: in wait-only mode, a spawn or wait failure yields the spawn failure
carrying no exit status and no output; an unsuccessful exit yields the
non-zero-exit failure carrying the exit status but no output; a successful
exit yields Ok(()). -/
theorem exec_spec (st : ExitStatus) :
    (exec (Except.error ()) = Except.error ExecError.spawnFailure ∧
      (ExecError.spawnFailure : ExecError Unit).exitStatus = none ∧
      (ExecError.spawnFailure : ExecError Unit).attachedOutput = none) ∧
    (st.success = false →
      exec (Except.ok st) = Except.error (ExecError.nonZeroExit st none) ∧
      (ExecError.nonZeroExit st none : ExecError Unit).exitStatus = some st ∧
      (ExecError.nonZeroExit st none : ExecError Unit).attachedOutput = none) ∧
    (st.success = true → exec (Except.ok st) = Except.ok ()) := by
  refine ⟨⟨rfl, rfl, rfl⟩, ?_, ?_⟩ <;> intro h <;>
    simp [exec, h, ExecError.exitStatus, ExecError.attachedOutput]

theorem exec_spec_witness :
    exec (Except.ok (ExitStatus.mk 7 false)) =
      Except.error (ExecError.nonZeroExit (ExitStatus.mk 7 false) none) :=
  ((exec_spec (ExitStatus.mk 7 false)).2.1 rfl).1

theorem applyArgOps_append (xs ys : List ArgOp) :
    ∀ b : ProcessBuilder, applyArgOps b (xs ++ ys) = applyArgOps (applyArgOps b xs) ys := by
  induction xs with
  | nil => intro b; rfl
  | cons op rest ih =>
    intro b
    cases op <;> simp [applyArgOps, ih]

theorem applyArgOps_no_replace (ops : List ArgOp) :
    ∀ b : ProcessBuilder, noReplace ops = true →
      (applyArgOps b ops).args = b.args ++ appendedArgs ops := by
  induction ops with
  | nil => intro b _; simp [applyArgOps, appendedArgs]
  | cons op rest ih =>
    intro b h
    cases op with
    | arg a =>
      have hr : noReplace rest = true := by
        simpa [noReplace] using h
      simp [applyArgOps, appendedArgs, ih _ hr, ProcessBuilder.arg]
    | args as =>
      have hr : noReplace rest = true := by
        simpa [noReplace] using h
      simp [applyArgOps, appendedArgs, ih _ hr, ProcessBuilder.addArgs]
    | args_replace as =>
      simp [noReplace] at h

/-- C9: a sequence of arg / args calls accumulates exactly the
concatenation, in call order, of everything appended; and an args_replace
call discards the entire argument list built so far, leaving exactly its
own arguments (followed by whatever is appended after it). -/
theorem arg_accumulation (b : ProcessBuilder) (ops pre post : List ArgOp)
    (l : List String) :
    (noReplace ops = true →
      (applyArgOps b ops).args = b.args ++ appendedArgs ops) ∧
    (noReplace post = true →
      (applyArgOps b (pre ++ ArgOp.args_replace l :: post)).args =
        l ++ appendedArgs post) := by
  constructor
  · exact applyArgOps_no_replace ops b
  · intro h
    rw [applyArgOps_append]
    have : applyArgOps (applyArgOps b pre) (ArgOp.args_replace l :: post) =
        applyArgOps ((applyArgOps b pre).args_replace l) post := rfl
    rw [this, applyArgOps_no_replace post _ h]
    simp [ProcessBuilder.args_replace]

theorem arg_accumulation_witness :
    (applyArgOps (process ("p")) [ArgOp.arg ("x"), ArgOp.args ["y", "z"]]).args =
      (process ("p")).args ++ appendedArgs [ArgOp.arg ("x"), ArgOp.args ["y", "z"]] ∧
    (applyArgOps (process ("p"))
        ([ArgOp.arg ("q")] ++ ArgOp.args_replace ["r"] :: [ArgOp.arg ("s")])).args =
      ["r"] ++ appendedArgs [ArgOp.arg ("s")] :=
  ⟨(arg_accumulation (process ("p")) [ArgOp.arg ("x"), ArgOp.args ["y", "z"]]
      [ArgOp.arg ("q")] [ArgOp.arg ("s")] ["r"]).1 rfl,
   (arg_accumulation (process ("p")) [ArgOp.arg ("x"), ArgOp.args ["y", "z"]]
      [ArgOp.arg ("q")] [ArgOp.arg ("s")] ["r"]).2 rfl⟩

theorem splitInclusiveNl_cons (b : Nat) (rest : List Nat) :
    splitInclusiveNl (b :: rest) =
      if b = 10 then [10] :: splitInclusiveNl rest
      else
        match splitInclusiveNl rest with
        | [] => [[b]]
        | p :: ps => (b :: p) :: ps := rfl

theorem splitInclusiveNl_eq_nil_iff (l : List Nat) :
    splitInclusiveNl l = [] ↔ l = [] := by
  constructor
  · intro h
    cases l with
    | nil => rfl
    | cons b rest =>
      by_cases hb : b = 10
      · simp [splitInclusiveNl, hb] at h
      · simp only [splitInclusiveNl, if_neg hb] at h
        cases hsr : splitInclusiveNl rest with
        | nil => rw [hsr] at h; exact absurd h (by simp)
        | cons p ps => rw [hsr] at h; exact absurd h (by simp)
  · intro h
    rw [h]
    rfl

theorem splitInclusiveNl_flatten (l : List Nat) :
    (splitInclusiveNl l).flatten = l := by
  induction l with
  | nil => rfl
  | cons b rest ih =>
    by_cases hb : b = 10
    · subst hb
      simp [splitInclusiveNl, ih]
    · simp only [splitInclusiveNl, if_neg hb]
      cases hsr : splitInclusiveNl rest with
      | nil =>
        have : rest = [] := (splitInclusiveNl_eq_nil_iff rest).mp hsr
        simp [this]
      | cons p ps =>
        rw [hsr] at ih
        simp only [List.flatten] at ih ⊢
        simp [ih]

theorem splitInclusiveNl_ne_nil (l : List Nat) :
    ∀ p ∈ splitInclusiveNl l, p ≠ [] := by
  induction l with
  | nil => intro p hp; simp [splitInclusiveNl] at hp
  | cons b rest ih =>
    intro p hp
    by_cases hb : b = 10
    · simp only [splitInclusiveNl, if_pos hb] at hp
      rcases List.mem_cons.mp hp with h | h
      · rw [h]; simp
      · exact ih p h
    · simp only [splitInclusiveNl, if_neg hb] at hp
      cases hsr : splitInclusiveNl rest with
      | nil =>
        rw [hsr] at hp
        rcases List.mem_cons.mp hp with h | h
        · rw [h]; simp
        · simp at h
      | cons q qs =>
        rw [hsr] at hp
        rcases List.mem_cons.mp hp with h | h
        · rw [h]; simp
        · exact ih p (by rw [hsr]; exact List.mem_cons_of_mem q h)

theorem splitInclusiveNl_innerNoNl (l : List Nat) :
    ∀ p ∈ splitInclusiveNl l, innerNoNl p = true := by
  induction l with
  | nil => intro p hp; simp [splitInclusiveNl] at hp
  | cons b rest ih =>
    intro p hp
    by_cases hb : b = 10
    · simp only [splitInclusiveNl, if_pos hb] at hp
      rcases List.mem_cons.mp hp with h | h
      · rw [h]; rfl
      · exact ih p h
    · simp only [splitInclusiveNl, if_neg hb] at hp
      cases hsr : splitInclusiveNl rest with
      | nil =>
        rw [hsr] at hp
        rcases List.mem_cons.mp hp with h | h
        · rw [h]; rfl
        · simp at h
      | cons q qs =>
        rw [hsr] at hp
        rcases List.mem_cons.mp hp with h | h
        · have hq : innerNoNl q = true := ih q (by rw [hsr]; exact List.mem_cons_self q qs)
          have hqne : q ≠ [] := splitInclusiveNl_ne_nil rest q (by rw [hsr]; exact List.mem_cons_self q qs)
          rw [h]
          cases q with
          | nil => exact absurd rfl hqne
          | cons c cs =>
            simp only [innerNoNl]
            rw [Bool.and_eq_true]
            exact ⟨by simpa using hb, hq⟩
        · exact ih p (by rw [hsr]; exact List.mem_cons_of_mem q h)

theorem endsNl_cons_of_ne_nil (b : Nat) (l : List Nat) (h : l ≠ []) :
    endsNl (b :: l) = endsNl l := by
  cases l with
  | nil => exact absurd rfl h
  | cons c cs => rfl

theorem endsNl_concat (q : List Nat) (b : Nat) :
    endsNl (q ++ [b]) = (b == 10) := by
  induction q with
  | nil => rfl
  | cons c cs ih =>
    rw [List.cons_append, endsNl_cons_of_ne_nil c (cs ++ [b]) (by simp), ih]

theorem endsNl_append_right (c r : List Nat) (h : r ≠ []) :
    endsNl (c ++ r) = endsNl r := by
  induction c with
  | nil => rfl
  | cons x xs ih =>
    rw [List.cons_append, endsNl_cons_of_ne_nil x (xs ++ r) (by simp [h]), ih]

theorem endsNl_exists_concat (l : List Nat) (h : endsNl l = true) :
    ∃ q, l = q ++ [10] := by
  induction l with
  | nil => simp [endsNl] at h
  | cons b rest ih =>
    cases rest with
    | nil =>
      refine ⟨[], ?_⟩
      have hb : b = 10 := by simpa [endsNl] using h
      simp [hb]
    | cons c cs =>
      have h2 : endsNl (c :: cs) = true := by
        rw [endsNl_cons_of_ne_nil b (c :: cs) (by simp)] at h
        exact h
      obtain ⟨q, hq⟩ := ih h2
      exact ⟨b :: q, by rw [List.cons_append, hq]⟩

theorem splitInclusiveNl_endsNl (l : List Nat) (h : endsNl l = true) :
    ∀ p ∈ splitInclusiveNl l, endsNl p = true := by
  induction l with
  | nil => simp [endsNl] at h
  | cons b rest ih =>
    intro p hp
    by_cases hb : b = 10
    · simp only [splitInclusiveNl, if_pos hb] at hp
      rcases List.mem_cons.mp hp with hh | hh
      · rw [hh]; rfl
      · cases rest with
        | nil => simp [splitInclusiveNl] at hh
        | cons c cs =>
          have h2 : endsNl (c :: cs) = true := by
            rw [endsNl_cons_of_ne_nil b (c :: cs) (by simp)] at h
            exact h
          exact ih h2 p hh
    · have hrne : rest ≠ [] := by
        intro he
        rw [he] at h
        exact hb (by simpa [endsNl] using h)
      have h2 : endsNl rest = true := by
        rw [endsNl_cons_of_ne_nil b rest hrne] at h
        exact h
      simp only [splitInclusiveNl, if_neg hb] at hp
      cases hsr : splitInclusiveNl rest with
      | nil => exact absurd ((splitInclusiveNl_eq_nil_iff rest).mp hsr) hrne
      | cons q qs =>
        rw [hsr] at hp
        rcases List.mem_cons.mp hp with hh | hh
        · have hq : endsNl q = true := ih h2 q (by rw [hsr]; exact List.mem_cons_self q qs)
          have hqne : q ≠ [] := splitInclusiveNl_ne_nil rest q (by rw [hsr]; exact List.mem_cons_self q qs)
          rw [hh, endsNl_cons_of_ne_nil b q hqne]
          exact hq
        · exact ih h2 p (by rw [hsr]; exact List.mem_cons_of_mem q hh)

theorem splitInclusiveNl_append (a b : List Nat) (h : endsNl a = true) :
    splitInclusiveNl (a ++ b) = splitInclusiveNl a ++ splitInclusiveNl b := by
  induction a with
  | nil => simp [endsNl] at h
  | cons c cs ih =>
    cases cs with
    | nil =>
      have hc : c = 10 := by simpa [endsNl] using h
      simp [splitInclusiveNl, hc]
    | cons d ds =>
      have h2 : endsNl (d :: ds) = true := by
        rw [endsNl_cons_of_ne_nil c (d :: ds) (by simp)] at h
        exact h
      rw [List.cons_append, splitInclusiveNl_cons c ((d :: ds) ++ b),
        splitInclusiveNl_cons c (d :: ds), ih h2]
      by_cases hc : c = 10
      · simp [if_pos hc]
      · rw [if_neg hc, if_neg hc]
        cases hsr : splitInclusiveNl (d :: ds) with
        | nil => exact absurd ((splitInclusiveNl_eq_nil_iff _).mp hsr) (by simp)
        | cons q qs => simp

theorem stripCr_subset (l : List Nat) : ∀ x ∈ stripCr l, x ∈ l := by
  intro x hx
  cases l with
  | nil => simp [stripCr] at hx
  | cons c rest =>
    by_cases hc : c = 13
    · simp only [stripCr, if_pos hc] at hx
      exact List.mem_cons_of_mem c hx
    · simpa [stripCr, if_neg hc] using hx

theorem lineMap_concat_nl (p : List Nat) (hend : endsNl p = true) (hcr : 13 ∉ p) :
    lineMap p ++ [10] = p := by
  obtain ⟨q, hq⟩ := endsNl_exists_concat p hend
  subst hq
  have hrev : (q ++ [10]).reverse = 10 :: q.reverse := by simp
  rw [lineMap, hrev]
  simp only [if_pos rfl]
  cases hqr : q.reverse with
  | nil =>
    have : q = [] := by simpa using congrArg List.reverse hqr
    simp [this, stripCr]
  | cons c r =>
    have hcq : c ∈ q := by
      rw [← List.mem_reverse, hqr]
      exact List.mem_cons_self c r
    have hc13 : c ≠ 13 := by
      intro he
      exact hcr (by rw [he] at hcq; exact List.mem_append_left [10] hcq)
    rw [stripCr, if_neg hc13, ← hqr]
    simp

theorem innerNoNl_concat_forall (q : List Nat) (b : Nat)
    (h : innerNoNl (q ++ [b]) = true) : ∀ x ∈ q, x ≠ 10 := by
  induction q with
  | nil => intro x hx; simp at hx
  | cons c cs ih =>
    intro x hx
    have hsplit : (c != 10) = true ∧ innerNoNl (cs ++ [b]) = true := by
      cases cs with
      | nil => exact ⟨by simpa [innerNoNl] using h, rfl⟩
      | cons d ds =>
        have := h
        simp only [List.cons_append, innerNoNl, Bool.and_eq_true] at this
        exact ⟨this.1, this.2⟩
    rcases List.mem_cons.mp hx with hh | hh
    · rw [hh]
      simpa using hsplit.1
    · exact ih hsplit.2 x hh

theorem lineMap_no_nl (p : List Nat) (h : innerNoNl p = true) : 10 ∉ lineMap p := by
  cases hrev : p.reverse with
  | nil =>
    have hp : p = [] := by simpa using congrArg List.reverse hrev
    rw [lineMap, hrev]
    simp [hp]
  | cons b rest =>
    have hp : p = rest.reverse ++ [b] := by
      have := congrArg List.reverse hrev
      simpa using this
    have hforall : ∀ x ∈ rest.reverse, x ≠ 10 := by
      rw [hp] at h
      exact innerNoNl_concat_forall rest.reverse b h
    rw [lineMap, hrev]
    show 10 ∉ (if b = 10 then (stripCr rest).reverse else p)
    by_cases hb : b = 10
    · rw [if_pos hb]
      intro hmem
      have h1 : (10 : Nat) ∈ stripCr rest := List.mem_reverse.mp hmem
      have h2 : (10 : Nat) ∈ rest := stripCr_subset rest 10 h1
      exact hforall 10 (List.mem_reverse.mpr h2) rfl
    · rw [if_neg hb]
      intro hmem
      rw [hp] at hmem
      rcases List.mem_append.mp hmem with hh | hh
      · exact hforall 10 hh rfl
      · have h10b : (10 : Nat) = b := by simpa using hh
        exact hb h10b.symm

theorem lossyLines_no_nl (r : List Nat) : ∀ l ∈ lossyLines r, 10 ∉ l := by
  intro l hl
  obtain ⟨p, hp, hpl⟩ := List.mem_map.mp hl
  rw [← hpl]
  exact lineMap_no_nl p (splitInclusiveNl_innerNoNl r p hp)

theorem mapCongrId (f : List Nat → List Nat) (l : List (List Nat))
    (h : ∀ x ∈ l, f x = x) : l.map f = l := by
  induction l with
  | nil => rfl
  | cons x xs ih =>
    rw [List.map_cons, h x (List.mem_cons_self x xs),
      ih (fun y hy => h y (List.mem_cons_of_mem x hy))]

theorem joinLines_append (a b : List (List Nat)) :
    joinLines (a ++ b) = joinLines a ++ joinLines b := by
  rw [joinLines, joinLines, joinLines, List.map_append, List.flatten_append]

theorem lossyLines_append (a b : List Nat) (h : endsNl a = true) :
    lossyLines (a ++ b) = lossyLines a ++ lossyLines b := by
  rw [lossyLines, lossyLines, lossyLines, splitInclusiveNl_append a b h,
    List.map_append]

theorem joinLines_lossyLines (r : List Nat) (hend : endsNl r = true ∨ r = [])
    (hcr : 13 ∉ r) : joinLines (lossyLines r) = r := by
  rcases hend with hend | hnil
  · have hmem : ∀ p ∈ splitInclusiveNl r, lineMap p ++ [10] = p := by
      intro p hp
      refine lineMap_concat_nl p (splitInclusiveNl_endsNl r hend p hp) ?_
      intro hc
      refine hcr ?_
      rw [← splitInclusiveNl_flatten r]
      exact List.mem_flatten.mpr ⟨p, hp, hc⟩
    rw [joinLines, lossyLines, List.map_map]
    calc ((splitInclusiveNl r).map ((fun l => l ++ [10]) ∘ lineMap)).flatten
        = (splitInclusiveNl r).flatten := by
          rw [mapCongrId ((fun l => l ++ [10]) ∘ lineMap) (splitInclusiveNl r) hmem]
      _ = r := splitInclusiveNl_flatten r
  · rw [hnil]
    rfl

theorem endsNl_join_region (cap r : List Nat) (hr : r ≠ []) :
    endsNl (cap ++ r) = endsNl r := endsNl_append_right cap r hr

theorem prefixThroughLastNl_of_endsNl (l : List Nat) (h : endsNl l = true) :
    prefixThroughLastNl l = l := by
  induction l with
  | nil => simp [endsNl] at h
  | cons b rest ih =>
    cases rest with
    | nil =>
      have hb : b = 10 := by simpa [endsNl] using h
      subst hb
      rfl
    | cons c cs =>
      have h2 : endsNl (c :: cs) = true := by
        rw [endsNl_cons_of_ne_nil b (c :: cs) (by simp)] at h
        exact h
      have hih := ih h2
      rw [prefixThroughLastNl] at hih
      cases hpos : rposition (fun x => x == 10) (c :: cs) with
      | none => rw [hpos] at hih; simp at hih
      | some i =>
        rw [hpos] at hih
        rw [prefixThroughLastNl, rposition, hpos]
        simpa [List.take_succ_cons] using hih

theorem rposition_none_iff (p : Nat → Bool) (l : List Nat) :
    rposition p l = none ↔ ∀ b ∈ l, p b = false := by
  induction l with
  | nil => simp [rposition]
  | cons b rest ih =>
    constructor
    · intro h x hx
      rw [rposition] at h
      cases hr : rposition p rest with
      | some i => rw [hr] at h; simp at h
      | none =>
        rw [hr] at h
        rcases List.mem_cons.mp hx with hh | hh
        · subst hh
          by_cases hp : p x = true
          · rw [if_pos hp] at h; simp at h
          · simpa using hp
        · exact (ih.mp hr) x hh
    · intro h
      have hr : rposition p rest = none :=
        ih.mpr (fun x hx => h x (List.mem_cons_of_mem b hx))
      rw [rposition, hr]
      simp [h b (List.mem_cons_self b rest)]

theorem rposition_some_spec (p : Nat → Bool) :
    ∀ (l : List Nat) (i : Nat), rposition p l = some i →
      (∃ b, l.get? i = some b ∧ p b = true) ∧
      ∀ j b, i < j → l.get? j = some b → p b = false := by
  intro l
  induction l with
  | nil => intro i h; simp [rposition] at h
  | cons b rest ih =>
    intro i h
    rw [rposition] at h
    cases hr : rposition p rest with
    | some k =>
      rw [hr] at h
      have hik : i = k + 1 := by
        have h2 := h
        simp at h2
        exact h2.symm
      subst hik
      obtain ⟨⟨c, hc, hpc⟩, hafter⟩ := ih k hr
      refine ⟨⟨c, by simpa using hc, hpc⟩, ?_⟩
      intro j x hj hx
      cases j with
      | zero => omega
      | succ j2 =>
        have hj2 : k < j2 := by omega
        exact hafter j2 x hj2 (by simpa using hx)
    | none =>
      rw [hr] at h
      by_cases hp : p b = true
      · rw [if_pos hp] at h
        have hi : i = 0 := by
          have := h
          simp at this
          exact this.symm
        subst hi
        refine ⟨⟨b, rfl, hp⟩, ?_⟩
        intro j x hj hx
        cases j with
        | zero => omega
        | succ j2 =>
          have hmem : x ∈ rest := List.get?_mem (by simpa using hx)
          exact (rposition_none_iff p rest).mp hr x hmem
      · rw [if_neg hp] at h
        simp at h

theorem rposition_eq_some_of_mem (p : Nat → Bool) (l : List Nat)
    (b : Nat) (hb : b ∈ l) (hp : p b = true) : ∃ i, rposition p l = some i := by
  cases h : rposition p l with
  | some i => exact ⟨i, rfl⟩
  | none =>
    have := (rposition_none_iff p l).mp h b hb
    rw [hp] at this
    cases this

theorem take_endsNl_of_get (l : List Nat) :
    ∀ i, l.get? i = some 10 → endsNl (l.take (i + 1)) = true := by
  induction l with
  | nil => intro i h; simp at h
  | cons b rest ih =>
    intro i h
    cases i with
    | zero =>
      have hb : b = 10 := by simpa using h
      simp [hb, List.take_succ_cons, endsNl]
    | succ i2 =>
      have h2 : rest.get? i2 = some 10 := by simpa using h
      have hlt : i2 < rest.length := by
        rcases List.get?_eq_some.mp h2 with ⟨hl, _⟩
        exact hl
      have htne : rest.take (i2 + 1) ≠ [] := by
        cases rest with
        | nil => simp at hlt
        | cons c cs => simp [List.take_succ_cons]
      rw [List.take_succ_cons, endsNl_cons_of_ne_nil b _ htne]
      exact ih i2 h2

theorem dispatch_frozen (cb : StreamCallbacks σ ε) (f : Bool)
    (ls : List (List Nat)) (st : ExecState σ ε) (e : ε)
    (h : st.callback_error = some e) : dispatchLines cb f ls st = st := by
  cases ls with
  | nil => rfl
  | cons line rest => simp [dispatchLines, h]

theorem dispatch_cbErr_none_of (cb : StreamCallbacks σ ε) (f : Bool)
    (ls : List (List Nat)) (st : ExecState σ ε)
    (h : (dispatchLines cb f ls st).callback_error = none) :
    st.callback_error = none := by
  cases he : st.callback_error with
  | none => rfl
  | some e =>
    rw [dispatch_frozen cb f ls st e he] at h
    rw [he] at h
    cases h

theorem dispatch_frame (cb : StreamCallbacks σ ε) (f : Bool) :
    ∀ (ls : List (List Nat)) (st : ExecState σ ε),
      (dispatchLines cb f ls st).outBuf = st.outBuf ∧
      (dispatchLines cb f ls st).errBuf = st.errBuf ∧
      (dispatchLines cb f ls st).stdout = st.stdout ∧
      (dispatchLines cb f ls st).stderr = st.stderr := by
  intro ls
  induction ls with
  | nil => intro st; exact ⟨rfl, rfl, rfl, rfl⟩
  | cons line rest ih =>
    intro st
    by_cases h : st.callback_error.isSome
    · simp [dispatchLines, h]
    · simp only [dispatchLines, h, if_false]
      exact ih _

theorem dispatch_trace_ok (cb : StreamCallbacks σ ε) (f : Bool) :
    ∀ (ls : List (List Nat)) (st : ExecState σ ε),
      st.callback_error = none →
      (dispatchLines cb f ls st).callback_error = none →
      (dispatchLines cb f ls st).trace =
        st.trace ++ ls.map (fun l => ((f, l, Except.ok ()) : Bool × List Nat × Except ε Unit)) := by
  intro ls
  induction ls with
  | nil => intro st h hr; simp [dispatchLines]
  | cons line rest ih =>
    intro st h hr
    cases hc : callLine cb f st.cbState line with
    | mk s2 res =>
      cases res with
      | ok u =>
        cases u
        simp only [dispatchLines, h, Option.isSome_none, Bool.false_eq_true,
          if_false, hc] at hr ⊢
        rw [ih _ (by simp [h]) hr]
        simp
      | error e =>
        exfalso
        simp only [dispatchLines, h, Option.isSome_none, Bool.false_eq_true,
          if_false, hc] at hr
        rw [dispatch_frozen cb f rest _ e (by simp)] at hr
        simp at hr

theorem linesOf_append (flag : Bool) (t1 t2 : List (Bool × List Nat × Except ε Unit)) :
    linesOf flag (t1 ++ t2) = linesOf flag t1 ++ linesOf flag t2 := by
  simp [linesOf, List.filter_append]

theorem linesOf_map_ok (flag f : Bool) (ls : List (List Nat)) :
    linesOf flag (ls.map (fun l => ((f, l, Except.ok ()) : Bool × List Nat × Except ε Unit))) =
      if f == flag then ls else [] := by
  induction ls with
  | nil => simp [linesOf]
  | cons line rest ih =>
    by_cases h : f == flag
    · simp only [List.map_cons, linesOf, List.filter_cons] at ih ⊢
      simp [h] at ih ⊢
      exact ih
    · simp only [List.map_cons, linesOf, List.filter_cons] at ih ⊢
      have hb : (f == flag) = false := by
        cases hfb : f == flag
        · rfl
        · exact absurd hfb h
      simp [hb] at ih ⊢
      exact ih

theorem dispatch_trace_other (cb : StreamCallbacks σ ε) (f flag : Bool)
    (hne : (f == flag) = false) :
    ∀ (ls : List (List Nat)) (st : ExecState σ ε),
      linesOf flag (dispatchLines cb f ls st).trace = linesOf flag st.trace := by
  intro ls
  induction ls with
  | nil => intro st; rfl
  | cons line rest ih =>
    intro st
    by_cases h : st.callback_error.isSome
    · simp [dispatchLines, h]
    · simp only [dispatchLines, h, Bool.false_eq_true, if_false]
      cases hc : callLine cb f st.cbState line with
      | mk s2 res =>
        rw [ih]
        simp [linesOf_append, linesOf, hne]

theorem dispatch_proj (cb : StreamCallbacks σ ε) (f : Bool) :
    ∀ (ls : List (List Nat)) (st1 st2 : ExecState σ ε),
      st1.cbState = st2.cbState →
      st1.callback_error = st2.callback_error →
      st1.trace = st2.trace →
      (dispatchLines cb f ls st1).cbState = (dispatchLines cb f ls st2).cbState ∧
      (dispatchLines cb f ls st1).callback_error = (dispatchLines cb f ls st2).callback_error ∧
      (dispatchLines cb f ls st1).trace = (dispatchLines cb f ls st2).trace := by
  intro ls
  induction ls with
  | nil => intro st1 st2 h1 h2 h3; exact ⟨h1, h2, h3⟩
  | cons line rest ih =>
    intro st1 st2 h1 h2 h3
    by_cases h : st1.callback_error.isSome
    · have h4 : st2.callback_error.isSome := by rw [← h2]; exact h
      simp only [dispatchLines, h, h4, if_true]
      exact ⟨h1, h2, h3⟩
    · have h4 : ¬st2.callback_error.isSome := by rw [← h2]; exact h
      simp only [dispatchLines, h, h4, if_false]
      rw [h1, h2, h3]
      exact ih _ _ rfl rfl rfl

theorem handleChunk_none (c : Bool) (cb : StreamCallbacks σ ε)
    (st : ExecState σ ε) (f eof : Bool)
    (h : splitIdx eof (if f then st.outBuf else st.errBuf) = none) :
    handleChunk c cb st f eof = st := by
  simp only [handleChunk, h]

theorem handleChunk_some (c : Bool) (cb : StreamCallbacks σ ε)
    (st : ExecState σ ε) (f eof : Bool) (idx : Nat)
    (h : splitIdx eof (if f then st.outBuf else st.errBuf) = some idx) :
    handleChunk c cb st f eof =
      (let data := if f then st.outBuf else st.errBuf
       let st1 :=
         if c then
           if f then
             { st with stdout := st.stdout ++ data.take idx, outBuf := data.drop idx }
           else
             { st with stderr := st.stderr ++ data.take idx, errBuf := data.drop idx }
         else st
       let st2 := dispatchLines cb f (lossyLines (data.take idx)) st1
       if c then st2
       else if f then { st2 with outBuf := data.drop idx }
       else { st2 with errBuf := data.drop idx }) := by
  simp only [handleChunk, h]

theorem handleChunk_cbErr_none_of (c : Bool) (cb : StreamCallbacks σ ε)
    (st : ExecState σ ε) (f eof : Bool)
    (h : (handleChunk c cb st f eof).callback_error = none) :
    st.callback_error = none := by
  cases hs : splitIdx eof (if f then st.outBuf else st.errBuf) with
  | none =>
    rw [handleChunk_none c cb st f eof hs] at h
    exact h
  | some idx =>
    rw [handleChunk_some c cb st f eof idx hs] at h
    cases c with
    | false =>
      cases f with
      | false =>
        simp only [Bool.false_eq_true, if_false] at h
        exact dispatch_cbErr_none_of cb false _ st (by simpa using h)
      | true =>
        simp only [Bool.false_eq_true, if_false, if_true] at h
        exact dispatch_cbErr_none_of cb true _ st (by simpa using h)
    | true =>
      cases f with
      | false =>
        simp only [if_true, Bool.false_eq_true, if_false] at h
        have h2 := dispatch_cbErr_none_of cb false _ _ h
        exact h2
      | true =>
        simp only [if_true] at h
        have h2 := dispatch_cbErr_none_of cb true _ _ h
        exact h2

theorem stepEv_cbErr_none_of (c : Bool) (cb : StreamCallbacks σ ε)
    (st : ExecState σ ε) (e : Ev)
    (h : (stepEv c cb st e).callback_error = none) :
    st.callback_error = none := by
  rcases e with ⟨f, bytes, eof⟩
  cases f with
  | false =>
    have h2 := handleChunk_cbErr_none_of c cb
      { st with errBuf := st.errBuf ++ bytes } false eof h
    exact h2
  | true =>
    have h2 := handleChunk_cbErr_none_of c cb
      { st with outBuf := st.outBuf ++ bytes } true eof h
    exact h2

theorem run_cbErr_none_of (c : Bool) (cb : StreamCallbacks σ ε) :
    ∀ (evs : List Ev) (st : ExecState σ ε),
      (evs.foldl (stepEv c cb) st).callback_error = none →
      st.callback_error = none := by
  intro evs
  induction evs with
  | nil => intro st h; exact h
  | cons e rest ih =>
    intro st h
    exact stepEv_cbErr_none_of c cb st e (ih (stepEv c cb st e) h)

theorem stepEv_other_frame (c : Bool) (cb : StreamCallbacks σ ε)
    (st : ExecState σ ε) (bytes : List Nat) (eof flag : Bool) :
    capOf flag (stepEv c cb st (Ev.mk (!flag) bytes eof)) = capOf flag st ∧
    bufOf flag (stepEv c cb st (Ev.mk (!flag) bytes eof)) = bufOf flag st ∧
    linesOf flag (stepEv c cb st (Ev.mk (!flag) bytes eof)).trace =
      linesOf flag st.trace := by
  cases flag with
  | true =>
    rw [show stepEv c cb st (Ev.mk (!true) bytes eof) =
      handleChunk c cb { st with errBuf := st.errBuf ++ bytes } false eof from rfl]
    cases hs : splitIdx eof
        (if false then ({ st with errBuf := st.errBuf ++ bytes } : ExecState σ ε).outBuf
         else ({ st with errBuf := st.errBuf ++ bytes } : ExecState σ ε).errBuf) with
    | none =>
      rw [handleChunk_none c cb _ false eof hs]
      exact ⟨rfl, rfl, rfl⟩
    | some idx =>
      rw [handleChunk_some c cb _ false eof idx hs]
      cases c with
      | false =>
        simp only [capOf, bufOf, if_true, Bool.false_eq_true, if_false]
        refine ⟨?_, ?_, ?_⟩
        · have h2 := (dispatch_frame cb false
            (lossyLines (List.take idx
              ({ st with errBuf := st.errBuf ++ bytes } : ExecState σ ε).errBuf))
            { st with errBuf := st.errBuf ++ bytes }).2.2.1
          exact h2
        · have h2 := (dispatch_frame cb false
            (lossyLines (List.take idx
              ({ st with errBuf := st.errBuf ++ bytes } : ExecState σ ε).errBuf))
            { st with errBuf := st.errBuf ++ bytes }).1
          exact h2
        · have h2 := dispatch_trace_other cb false true rfl
            (lossyLines (List.take idx
              ({ st with errBuf := st.errBuf ++ bytes } : ExecState σ ε).errBuf))
            { st with errBuf := st.errBuf ++ bytes }
          exact h2
      | true =>
        simp only [capOf, bufOf, if_true, Bool.false_eq_true, if_false]
        refine ⟨?_, ?_, ?_⟩
        · have h2 := (dispatch_frame cb false
            (lossyLines (List.take idx (st.errBuf ++ bytes)))
            { st with stderr := st.stderr ++ List.take idx (st.errBuf ++ bytes),
                      errBuf := List.drop idx (st.errBuf ++ bytes) }).2.2.1
          exact h2
        · have h2 := (dispatch_frame cb false
            (lossyLines (List.take idx (st.errBuf ++ bytes)))
            { st with stderr := st.stderr ++ List.take idx (st.errBuf ++ bytes),
                      errBuf := List.drop idx (st.errBuf ++ bytes) }).1
          exact h2
        · have h2 := dispatch_trace_other cb false true rfl
            (lossyLines (List.take idx (st.errBuf ++ bytes)))
            { st with stderr := st.stderr ++ List.take idx (st.errBuf ++ bytes),
                      errBuf := List.drop idx (st.errBuf ++ bytes) }
          exact h2
  | false =>
    rw [show stepEv c cb st (Ev.mk (!false) bytes eof) =
      handleChunk c cb { st with outBuf := st.outBuf ++ bytes } true eof from rfl]
    cases hs : splitIdx eof
        (if true then ({ st with outBuf := st.outBuf ++ bytes } : ExecState σ ε).outBuf
         else ({ st with outBuf := st.outBuf ++ bytes } : ExecState σ ε).errBuf) with
    | none =>
      rw [handleChunk_none c cb _ true eof hs]
      exact ⟨rfl, rfl, rfl⟩
    | some idx =>
      rw [handleChunk_some c cb _ true eof idx hs]
      cases c with
      | false =>
        simp only [capOf, bufOf, if_true, Bool.false_eq_true, if_false]
        refine ⟨?_, ?_, ?_⟩
        · have h2 := (dispatch_frame cb true
            (lossyLines (List.take idx
              ({ st with outBuf := st.outBuf ++ bytes } : ExecState σ ε).outBuf))
            { st with outBuf := st.outBuf ++ bytes }).2.2.2
          exact h2
        · have h2 := (dispatch_frame cb true
            (lossyLines (List.take idx
              ({ st with outBuf := st.outBuf ++ bytes } : ExecState σ ε).outBuf))
            { st with outBuf := st.outBuf ++ bytes }).2.1
          exact h2
        · have h2 := dispatch_trace_other cb true false rfl
            (lossyLines (List.take idx
              ({ st with outBuf := st.outBuf ++ bytes } : ExecState σ ε).outBuf))
            { st with outBuf := st.outBuf ++ bytes }
          exact h2
      | true =>
        simp only [capOf, bufOf, if_true, Bool.false_eq_true, if_false]
        refine ⟨?_, ?_, ?_⟩
        · have h2 := (dispatch_frame cb true
            (lossyLines (List.take idx (st.outBuf ++ bytes)))
            { st with stdout := st.stdout ++ List.take idx (st.outBuf ++ bytes),
                      outBuf := List.drop idx (st.outBuf ++ bytes) }).2.2.2
          exact h2
        · have h2 := (dispatch_frame cb true
            (lossyLines (List.take idx (st.outBuf ++ bytes)))
            { st with stdout := st.stdout ++ List.take idx (st.outBuf ++ bytes),
                      outBuf := List.drop idx (st.outBuf ++ bytes) }).2.1
          exact h2
        · have h2 := dispatch_trace_other cb true false rfl
            (lossyLines (List.take idx (st.outBuf ++ bytes)))
            { st with stdout := st.stdout ++ List.take idx (st.outBuf ++ bytes),
                      outBuf := List.drop idx (st.outBuf ++ bytes) }
          exact h2

theorem bool_eq_not_of_beq_false : ∀ (a b : Bool), (a == b) = false → a = !b := by
  decide

theorem run_no_stream_frame (c : Bool) (cb : StreamCallbacks σ ε) (flag : Bool) :
    ∀ (evs : List Ev) (st : ExecState σ ε), streamEvs flag evs = [] →
      capOf flag (evs.foldl (stepEv c cb) st) = capOf flag st ∧
      bufOf flag (evs.foldl (stepEv c cb) st) = bufOf flag st ∧
      linesOf flag (evs.foldl (stepEv c cb) st).trace = linesOf flag st.trace := by
  intro evs
  induction evs with
  | nil => intro st _; exact ⟨rfl, rfl, rfl⟩
  | cons e rest ih =>
    intro st h
    rcases e with ⟨f, bytes, eof⟩
    simp only [streamEvs, List.filter_cons] at h
    by_cases hb : (f == flag) = true
    · simp [hb] at h
    · have hf : (f == flag) = false := by
        cases hfb : f == flag
        · rfl
        · exact absurd hfb hb
      have hrest : streamEvs flag rest = [] := by
        rw [hf] at h
        simpa [streamEvs] using h
      have hff : f = !flag := bool_eq_not_of_beq_false f flag hf
      subst hff
      rw [List.foldl_cons]
      have hstep := stepEv_other_frame c cb st bytes eof flag
      have hrun := ih (stepEv c cb st (Ev.mk (!flag) bytes eof)) hrest
      exact ⟨hrun.1.trans hstep.1, hrun.2.1.trans hstep.2.1,
        hrun.2.2.trans hstep.2.2⟩

theorem stepEv_flag_none (cb : StreamCallbacks σ ε) (st : ExecState σ ε)
    (bytes : List Nat) (eof flag : Bool)
    (hs : splitIdx eof (bufOf flag st ++ bytes) = none) :
    capOf flag (stepEv true cb st (Ev.mk flag bytes eof)) = capOf flag st ∧
    bufOf flag (stepEv true cb st (Ev.mk flag bytes eof)) = bufOf flag st ++ bytes ∧
    (stepEv true cb st (Ev.mk flag bytes eof)).trace = st.trace ∧
    (stepEv true cb st (Ev.mk flag bytes eof)).callback_error = st.callback_error := by
  cases flag with
  | true =>
    rw [show stepEv true cb st (Ev.mk true bytes eof) =
      handleChunk true cb { st with outBuf := st.outBuf ++ bytes } true eof from rfl]
    rw [handleChunk_none true cb _ true eof (by simpa [bufOf] using hs)]
    exact ⟨rfl, rfl, rfl, rfl⟩
  | false =>
    rw [show stepEv true cb st (Ev.mk false bytes eof) =
      handleChunk true cb { st with errBuf := st.errBuf ++ bytes } false eof from rfl]
    rw [handleChunk_none true cb _ false eof (by simpa [bufOf] using hs)]
    exact ⟨rfl, rfl, rfl, rfl⟩

theorem stepEv_flag_some (cb : StreamCallbacks σ ε) (st : ExecState σ ε)
    (bytes : List Nat) (eof flag : Bool) (idx : Nat)
    (hs : splitIdx eof (bufOf flag st ++ bytes) = some idx) :
    ∃ st1 : ExecState σ ε,
      st1.trace = st.trace ∧
      st1.callback_error = st.callback_error ∧
      capOf flag st1 = capOf flag st ++ (bufOf flag st ++ bytes).take idx ∧
      bufOf flag st1 = (bufOf flag st ++ bytes).drop idx ∧
      stepEv true cb st (Ev.mk flag bytes eof) =
        dispatchLines cb flag (lossyLines ((bufOf flag st ++ bytes).take idx)) st1 := by
  cases flag with
  | true =>
    refine ⟨{ st with
              stdout := st.stdout ++ (st.outBuf ++ bytes).take idx
              outBuf := (st.outBuf ++ bytes).drop idx }, rfl, rfl, rfl, rfl, ?_⟩
    rw [show stepEv true cb st (Ev.mk true bytes eof) =
      handleChunk true cb { st with outBuf := st.outBuf ++ bytes } true eof from rfl]
    rw [handleChunk_some true cb _ true eof idx (by simpa [bufOf] using hs)]
    rfl
  | false =>
    refine ⟨{ st with
              stderr := st.stderr ++ (st.errBuf ++ bytes).take idx
              errBuf := (st.errBuf ++ bytes).drop idx }, rfl, rfl, rfl, rfl, ?_⟩
    rw [show stepEv true cb st (Ev.mk false bytes eof) =
      handleChunk true cb { st with errBuf := st.errBuf ++ bytes } false eof from rfl]
    rw [handleChunk_some true cb _ false eof idx (by simpa [bufOf] using hs)]
    rfl

theorem endsNl_ne_nil (l : List Nat) (h : endsNl l = true) : l ≠ [] := by
  intro he
  rw [he] at h
  cases h

theorem dispatch_capbuf (cb : StreamCallbacks σ ε) (f flag : Bool)
    (ls : List (List Nat)) (st : ExecState σ ε) :
    capOf flag (dispatchLines cb f ls st) = capOf flag st ∧
    bufOf flag (dispatchLines cb f ls st) = bufOf flag st := by
  cases flag with
  | true => exact ⟨(dispatch_frame cb f ls st).2.2.1, (dispatch_frame cb f ls st).1⟩
  | false => exact ⟨(dispatch_frame cb f ls st).2.2.2, (dispatch_frame cb f ls st).2.1⟩

theorem splitIdx_false_some (data : List Nat) (idx : Nat)
    (hs : splitIdx false data = some idx) :
    ∃ i, rposition (fun b => b == 10) data = some i ∧ idx = i + 1 := by
  rw [splitIdx] at hs
  simp only [Bool.false_eq_true, if_false] at hs
  cases hr : rposition (fun b => b == 10) data with
  | none => rw [hr] at hs; cases hs
  | some i =>
    rw [hr] at hs
    refine ⟨i, rfl, ?_⟩
    have := hs
    simp at this
    exact this.symm

theorem splitIdx_true (data : List Nat) : splitIdx true data = some data.length := by
  rfl

theorem region_endsNl (data : List Nat) (i : Nat)
    (hr : rposition (fun b => b == 10) data = some i) :
    endsNl (data.take (i + 1)) = true := by
  obtain ⟨⟨b, hb, hpb⟩, _⟩ := rposition_some_spec (fun b => b == 10) data i hr
  have hb10 : b = 10 := by simpa using hpb
  subst hb10
  exact take_endsNl_of_get data i hb

theorem run_goodcap (cb : StreamCallbacks σ ε) (flag : Bool) :
    ∀ (evs : List Ev) (st : ExecState σ ε),
      eofLastB (streamEvs flag evs) = true →
      (∀ e ∈ evs, 13 ∉ e.bytes) →
      (evs.foldl (stepEv true cb) st).callback_error = none →
      13 ∉ bufOf flag st →
      joinLines (linesOf flag st.trace) = capOf flag st →
      (capOf flag st = [] ∨ endsNl (capOf flag st) = true) →
      ((joinLines (linesOf flag (evs.foldl (stepEv true cb) st).trace) =
          capOf flag (evs.foldl (stepEv true cb) st) ∧
        (capOf flag (evs.foldl (stepEv true cb) st) = [] ∨
          endsNl (capOf flag (evs.foldl (stepEv true cb) st)) = true)) ∨
       (capOf flag (evs.foldl (stepEv true cb) st) ≠ [] ∧
        endsNl (capOf flag (evs.foldl (stepEv true cb) st)) = false)) := by
  intro evs
  induction evs with
  | nil =>
    intro st _ _ _ _ hjoin hend
    exact Or.inl ⟨hjoin, hend⟩
  | cons e rest ih =>
    intro st heof hcr hnone hbuf hjoin hend
    rw [List.foldl_cons] at hnone ⊢
    have hnone1 : (stepEv true cb st e).callback_error = none :=
      run_cbErr_none_of true cb rest _ hnone
    have hnone0 : st.callback_error = none := stepEv_cbErr_none_of true cb st e hnone1
    rcases e with ⟨f, bytes, eof⟩
    have hcr0 : 13 ∉ bytes := hcr (Ev.mk f bytes eof) (List.mem_cons_self _ _)
    have hcrrest : ∀ x ∈ rest, 13 ∉ x.bytes :=
      fun x hx => hcr x (List.mem_cons_of_mem _ hx)
    have hcrdata : 13 ∉ bufOf flag st ++ bytes := by
      intro hmem
      rcases List.mem_append.mp hmem with hh | hh
      · exact hbuf hh
      · exact hcr0 hh
    by_cases hb : (f == flag) = true
    · have hf : f = flag := eq_of_beq hb
      subst hf
      have hstream : streamEvs f (Ev.mk f bytes eof :: rest) =
          Ev.mk f bytes eof :: streamEvs f rest := by
        simp [streamEvs, List.filter_cons]
      rw [hstream] at heof
      simp only [eofLastB] at heof
      cases eof with
      | false =>
        simp only [Bool.false_eq_true, if_false] at heof
        cases hs : splitIdx false (bufOf f st ++ bytes) with
        | none =>
          obtain ⟨hc1, hb1, ht1, _⟩ := stepEv_flag_none cb st bytes false f hs
          refine ih _ heof hcrrest hnone ?_ ?_ ?_
          · rw [hb1]; exact hcrdata
          · rw [ht1, hc1]; exact hjoin
          · rw [hc1]; exact hend
        | some idx =>
          obtain ⟨i, hri, hidx⟩ := splitIdx_false_some _ idx hs
          obtain ⟨st1, ht1, he1, hc1, hb1, heq⟩ := stepEv_flag_some cb st bytes false f idx hs
          have hrend : endsNl ((bufOf f st ++ bytes).take idx) = true := by
            rw [hidx]
            exact region_endsNl _ i hri
          have hrne : (bufOf f st ++ bytes).take idx ≠ [] := endsNl_ne_nil _ hrend
          have hrcr : 13 ∉ (bufOf f st ++ bytes).take idx :=
            fun hm => hcrdata (List.take_subset idx _ hm)
          have hdnone : (dispatchLines cb f
              (lossyLines ((bufOf f st ++ bytes).take idx)) st1).callback_error = none := by
            rw [← heq]; exact hnone1
          have hst1none : st1.callback_error = none := by rw [he1]; exact hnone0
          have htr := dispatch_trace_ok cb f
            (lossyLines ((bufOf f st ++ bytes).take idx)) st1 hst1none hdnone
          have hlines : linesOf f (stepEv true cb st (Ev.mk f bytes false)).trace =
              linesOf f st.trace ++ lossyLines ((bufOf f st ++ bytes).take idx) := by
            rw [heq, htr, linesOf_append, ht1, linesOf_map_ok]
            simp
          have hcap : capOf f (stepEv true cb st (Ev.mk f bytes false)) =
              capOf f st ++ (bufOf f st ++ bytes).take idx := by
            rw [heq, (dispatch_capbuf cb f f _ st1).1, hc1]
          have hbuf1 : bufOf f (stepEv true cb st (Ev.mk f bytes false)) =
              (bufOf f st ++ bytes).drop idx := by
            rw [heq, (dispatch_capbuf cb f f _ st1).2, hb1]
          refine ih _ heof hcrrest hnone ?_ ?_ ?_
          · rw [hbuf1]
            exact fun hm => hcrdata (List.drop_subset idx _ hm)
          · rw [hlines, hcap, joinLines_append, hjoin,
              joinLines_lossyLines _ (Or.inl hrend) hrcr]
          · rw [hcap]
            refine Or.inr ?_
            rw [endsNl_append_right _ _ hrne]
            exact hrend
      | true =>
        simp only [if_true] at heof
        have hrestnil : streamEvs f rest = [] := by
          cases hsr : streamEvs f rest with
          | nil => rfl
          | cons x xs => rw [hsr] at heof; cases heof
        have hs : splitIdx true (bufOf f st ++ bytes) =
            some (bufOf f st ++ bytes).length := splitIdx_true _
        obtain ⟨st1, ht1, he1, hc1, hb1, heq⟩ :=
          stepEv_flag_some cb st bytes true f _ hs
        have htake : (bufOf f st ++ bytes).take (bufOf f st ++ bytes).length =
            bufOf f st ++ bytes := List.take_length _
        have hnofr := run_no_stream_frame true cb f rest
          (stepEv true cb st (Ev.mk f bytes true)) hrestnil
        have hdnone : (dispatchLines cb f
            (lossyLines ((bufOf f st ++ bytes).take (bufOf f st ++ bytes).length))
            st1).callback_error = none := by
          rw [← heq]; exact hnone1
        have hst1none : st1.callback_error = none := by rw [he1]; exact hnone0
        have htr := dispatch_trace_ok cb f
          (lossyLines ((bufOf f st ++ bytes).take (bufOf f st ++ bytes).length))
          st1 hst1none hdnone
        have hlines : linesOf f (stepEv true cb st (Ev.mk f bytes true)).trace =
            linesOf f st.trace ++ lossyLines (bufOf f st ++ bytes) := by
          rw [heq, htr, linesOf_append, ht1, linesOf_map_ok, htake]
          simp
        have hcap : capOf f (stepEv true cb st (Ev.mk f bytes true)) =
            capOf f st ++ (bufOf f st ++ bytes) := by
          rw [heq, (dispatch_capbuf cb f f _ st1).1, hc1, htake]
        by_cases hdnil : bufOf f st ++ bytes = []
        · refine Or.inl ⟨?_, ?_⟩
          · rw [hnofr.2.2, hnofr.1, hlines, hcap, hdnil]
            simp only [lossyLines, splitInclusiveNl, List.map_nil, List.append_nil]
            exact hjoin
          · rw [hnofr.1, hcap, hdnil, List.append_nil]
            exact hend
        · by_cases hdend : endsNl (bufOf f st ++ bytes) = true
          · refine Or.inl ⟨?_, ?_⟩
            · rw [hnofr.2.2, hnofr.1, hlines, hcap, joinLines_append, hjoin,
                joinLines_lossyLines _ (Or.inl hdend) hcrdata]
            · rw [hnofr.1, hcap]
              refine Or.inr ?_
              rw [endsNl_append_right _ _ hdnil]
              exact hdend
          · refine Or.inr ⟨?_, ?_⟩
            · rw [hnofr.1, hcap]
              intro hnil
              exact hdnil (List.append_eq_nil.mp hnil).2
            · rw [hnofr.1, hcap, endsNl_append_right _ _ hdnil]
              cases hde : endsNl (bufOf f st ++ bytes) with
              | false => rfl
              | true => exact absurd hde hdend
    · have hf : (f == flag) = false := by
        cases hfb : f == flag
        · rfl
        · exact absurd hfb hb
      have hff : f = !flag := bool_eq_not_of_beq_false f flag hf
      subst hff
      have hstream : streamEvs flag (Ev.mk (!flag) bytes eof :: rest) =
          streamEvs flag rest := by
        simp [streamEvs, List.filter_cons, hf]
      rw [hstream] at heof
      have hstep := stepEv_other_frame true cb st bytes eof flag
      refine ih _ heof hcrrest hnone ?_ ?_ ?_
      · rw [hstep.2.1]; exact hbuf
      · rw [hstep.2.2, hstep.1]; exact hjoin
      · rw [hstep.1]; exact hend

theorem dispatchLines_cons_none (cb : StreamCallbacks σ ε) (f : Bool)
    (line : List Nat) (rest : List (List Nat)) (st : ExecState σ ε)
    (h : st.callback_error = none) :
    dispatchLines cb f (line :: rest) st =
      dispatchLines cb f rest
        { st with
          cbState := (callLine cb f st.cbState line).1
          trace := st.trace ++ [(f, line, (callLine cb f st.cbState line).2)]
          callback_error :=
            match (callLine cb f st.cbState line).2 with
            | Except.error e => some e
            | Except.ok _ => st.callback_error } := by
  simp [dispatchLines, h]

theorem dispatch_errLast (cb : StreamCallbacks σ ε) (f : Bool) :
    ∀ (ls : List (List Nat)) (st : ExecState σ ε),
      errLastInvP st.callback_error st.trace →
      errLastInvP (dispatchLines cb f ls st).callback_error
        (dispatchLines cb f ls st).trace := by
  intro ls
  induction ls with
  | nil => intro st h; exact h
  | cons line rest ih =>
    intro st h
    cases hce : st.callback_error with
    | some e =>
      rw [dispatch_frozen cb f (line :: rest) st e hce]
      exact h
    | none =>
      rw [dispatchLines_cons_none cb f line rest st hce]
      apply ih
      simp only [hce, errLastInvP] at h
      cases hres : (callLine cb f st.cbState line).2 with
      | ok u =>
        show errLastInvP st.callback_error (st.trace ++ [(f, line, Except.ok u)])
        rw [hce]
        show okTrace (st.trace ++ [(f, line, Except.ok u)])
        intro x hx
        rcases List.mem_append.mp hx with hh | hh
        · exact h x hh
        · have hxe : x = (f, line, Except.ok u) := by simpa using hh
          rw [hxe]
          rfl
      | error e2 =>
        show errLastInvP (some e2) (st.trace ++ [(f, line, Except.error e2)])
        exact ⟨st.trace, (f, line, Except.error e2), rfl, rfl, h⟩

theorem handleChunk_errLast (c : Bool) (cb : StreamCallbacks σ ε)
    (st : ExecState σ ε) (f eof : Bool)
    (h : errLastInvP st.callback_error st.trace) :
    errLastInvP (handleChunk c cb st f eof).callback_error
      (handleChunk c cb st f eof).trace := by
  cases hs : splitIdx eof (if f then st.outBuf else st.errBuf) with
  | none => rw [handleChunk_none c cb st f eof hs]; exact h
  | some idx =>
    rw [handleChunk_some c cb st f eof idx hs]
    cases c with
    | true =>
      cases f with
      | true =>
        simp only [if_true]
        exact dispatch_errLast cb true _ _ h
      | false =>
        simp only [if_true, Bool.false_eq_true, if_false]
        exact dispatch_errLast cb false _ _ h
    | false =>
      cases f with
      | true =>
        simp only [Bool.false_eq_true, if_false, if_true]
        have h2 := dispatch_errLast cb true (lossyLines (List.take idx st.outBuf)) st h
        exact h2
      | false =>
        simp only [Bool.false_eq_true, if_false]
        have h2 := dispatch_errLast cb false (lossyLines (List.take idx st.errBuf)) st h
        exact h2

theorem stepEv_errLast (c : Bool) (cb : StreamCallbacks σ ε)
    (st : ExecState σ ε) (e : Ev)
    (h : errLastInvP st.callback_error st.trace) :
    errLastInvP (stepEv c cb st e).callback_error (stepEv c cb st e).trace := by
  rcases e with ⟨f, bytes, eof⟩
  cases f with
  | true =>
    have h2 := handleChunk_errLast c cb { st with outBuf := st.outBuf ++ bytes } true eof h
    exact h2
  | false =>
    have h2 := handleChunk_errLast c cb { st with errBuf := st.errBuf ++ bytes } false eof h
    exact h2

theorem run_errLast (c : Bool) (cb : StreamCallbacks σ ε) :
    ∀ (evs : List Ev) (st : ExecState σ ε),
      errLastInvP st.callback_error st.trace →
      errLastInvP (evs.foldl (stepEv c cb) st).callback_error
        (evs.foldl (stepEv c cb) st).trace := by
  intro evs
  induction evs with
  | nil => intro st h; exact h
  | cons e rest ih => intro st h; exact ih _ (stepEv_errLast c cb st e h)

theorem dispatch_traceNoNl (cb : StreamCallbacks σ ε) (f : Bool) :
    ∀ (ls : List (List Nat)) (st : ExecState σ ε),
      (∀ l ∈ ls, 10 ∉ l) → traceNoNl st.trace →
      traceNoNl (dispatchLines cb f ls st).trace := by
  intro ls
  induction ls with
  | nil => intro st _ h; exact h
  | cons line rest ih =>
    intro st hls h
    cases hce : st.callback_error with
    | some e =>
      rw [dispatch_frozen cb f (line :: rest) st e hce]
      exact h
    | none =>
      rw [dispatchLines_cons_none cb f line rest st hce]
      refine ih _ (fun l hl => hls l (List.mem_cons_of_mem _ hl)) ?_
      intro x hx
      rcases List.mem_append.mp hx with hh | hh
      · exact h x hh
      · have hxe : x = (f, line, (callLine cb f st.cbState line).2) := by simpa using hh
        rw [hxe]
        exact hls line (List.mem_cons_self _ _)

theorem handleChunk_traceNoNl (c : Bool) (cb : StreamCallbacks σ ε)
    (st : ExecState σ ε) (f eof : Bool)
    (h : traceNoNl st.trace) :
    traceNoNl (handleChunk c cb st f eof).trace := by
  cases hs : splitIdx eof (if f then st.outBuf else st.errBuf) with
  | none => rw [handleChunk_none c cb st f eof hs]; exact h
  | some idx =>
    rw [handleChunk_some c cb st f eof idx hs]
    cases c with
    | true =>
      cases f with
      | true =>
        simp only [if_true]
        exact dispatch_traceNoNl cb true _ _ (lossyLines_no_nl _) h
      | false =>
        simp only [if_true, Bool.false_eq_true, if_false]
        exact dispatch_traceNoNl cb false _ _ (lossyLines_no_nl _) h
    | false =>
      cases f with
      | true =>
        simp only [Bool.false_eq_true, if_false, if_true]
        have h2 := dispatch_traceNoNl cb true (lossyLines (List.take idx st.outBuf)) st
          (lossyLines_no_nl _) h
        exact h2
      | false =>
        simp only [Bool.false_eq_true, if_false]
        have h2 := dispatch_traceNoNl cb false (lossyLines (List.take idx st.errBuf)) st
          (lossyLines_no_nl _) h
        exact h2

theorem stepEv_traceNoNl (c : Bool) (cb : StreamCallbacks σ ε)
    (st : ExecState σ ε) (e : Ev)
    (h : traceNoNl st.trace) : traceNoNl (stepEv c cb st e).trace := by
  rcases e with ⟨f, bytes, eof⟩
  cases f with
  | true =>
    have h2 := handleChunk_traceNoNl c cb { st with outBuf := st.outBuf ++ bytes } true eof h
    exact h2
  | false =>
    have h2 := handleChunk_traceNoNl c cb { st with errBuf := st.errBuf ++ bytes } false eof h
    exact h2

theorem run_traceNoNl (c : Bool) (cb : StreamCallbacks σ ε) :
    ∀ (evs : List Ev) (st : ExecState σ ε), traceNoNl st.trace →
      traceNoNl (evs.foldl (stepEv c cb) st).trace := by
  intro evs
  induction evs with
  | nil => intro st h; exact h
  | cons e rest ih => intro st h; exact ih _ (stepEv_traceNoNl c cb st e h)

/-- C1: when a callback failure was recorded and the process also exited
non-zero, the composed outcome is the callback failure, with the Output
attached exactly when capture was requested; a non-zero-exit failure is
composed only when no callback failure was recorded. -/
theorem callback_failure_outranks (capture : Bool) (cb : StreamCallbacks σ ε)
    (s0 : σ) (evs : List Ev) (status : ExitStatus) (e : ε) (s2 : ExitStatus)
    (o : Option Output) :
    ((runEvents capture cb s0 evs).callback_error = some e →
      status.success = false →
      exec_with_streaming capture cb s0 (Except.ok (evs, status)) =
        Except.error (ExecError.callbackFailure e status
          (if capture then
            some (Output.mk (runEvents capture cb s0 evs).stdout
              (runEvents capture cb s0 evs).stderr status)
           else none))) ∧
    (exec_with_streaming capture cb s0 (Except.ok (evs, status)) =
        Except.error (ExecError.nonZeroExit s2 o) →
      (runEvents capture cb s0 evs).callback_error = none) := by
  constructor
  · intro h _
    simp [exec_with_streaming, composeResult, h]
  · intro h
    cases hce : (runEvents capture cb s0 evs).callback_error with
    | none => rfl
    | some e2 =>
      simp [exec_with_streaming, composeResult, hce] at h

theorem callback_failure_outranks_witness :
    exec_with_streaming true cbAlwaysErr ()
        (Except.ok ([Ev.mk true [97, 10] false], ExitStatus.mk 3 false)) =
      Except.error (ExecError.callbackFailure () (ExitStatus.mk 3 false)
        (some (Output.mk [97, 10] [] (ExitStatus.mk 3 false)))) ∧
    (runEvents true cbAlwaysOk () [Ev.mk true [97, 10] false]).callback_error = none :=
  ⟨(callback_failure_outranks true cbAlwaysErr () [Ev.mk true [97, 10] false]
      (ExitStatus.mk 3 false) () (ExitStatus.mk 0 true) none).1 (by decide) rfl,
   (callback_failure_outranks true cbAlwaysOk () [Ev.mk true [97, 10] false]
      (ExitStatus.mk 3 false) () (ExitStatus.mk 3 false)
      (some (Output.mk [97, 10] [] (ExitStatus.mk 3 false)))).2 (by decide)⟩

/-- C2: once a callback invocation returns an error, no further callback
is invoked on either stream: any invocation other than the last one in
the history succeeded; the process is still waited on afterwards, and
when capturing, the composed callback failure attaches an Output holding
the real exit status of that wait. -/
theorem no_callback_after_failure (capture : Bool) (cb : StreamCallbacks σ ε)
    (s0 : σ) (evs : List Ev) (status : ExitStatus) (e : ε) :
    (∀ x ∈ (runEvents capture cb s0 evs).trace.dropLast, exceptIsOk x.2.2 = true) ∧
    ((runEvents capture cb s0 evs).callback_error = some e → capture = true →
      exec_with_streaming capture cb s0 (Except.ok (evs, status)) =
        Except.error (ExecError.callbackFailure e status
          (some (Output.mk (runEvents capture cb s0 evs).stdout
            (runEvents capture cb s0 evs).stderr status)))) := by
  constructor
  · have hinv := run_errLast capture cb evs (initState s0)
      (by intro x hx; cases hx)
    rw [runEvents]
    cases hce : (evs.foldl (stepEv capture cb) (initState s0)).callback_error with
    | none =>
      rw [hce] at hinv
      intro x hx
      exact hinv x (List.dropLast_subset _ hx)
    | some e2 =>
      rw [hce] at hinv
      obtain ⟨t0, y, htr, _, hok⟩ := hinv
      intro x hx
      rw [htr, List.dropLast_concat] at hx
      exact hok x hx
  · intro h hcap
    subst hcap
    simp [exec_with_streaming, composeResult, h]

theorem no_callback_after_failure_witness :
    exceptIsOk ((true, [97], Except.ok ()) :
      Bool × List Nat × Except Unit Unit).2.2 = true ∧
    exec_with_streaming true cbErrOnSecond 0
        (Except.ok ([Ev.mk true [97, 10, 98, 10, 99, 10] false], ExitStatus.mk 0 true)) =
      Except.error (ExecError.callbackFailure () (ExitStatus.mk 0 true)
        (some (Output.mk [97, 10, 98, 10, 99, 10] [] (ExitStatus.mk 0 true)))) :=
  ⟨(no_callback_after_failure true cbErrOnSecond 0
      [Ev.mk true [97, 10, 98, 10, 99, 10] false] (ExitStatus.mk 0 true) ()).1
      (true, [97], Except.ok ()) (by decide),
   (no_callback_after_failure true cbErrOnSecond 0
      [Ev.mk true [97, 10, 98, 10, 99, 10] false] (ExitStatus.mk 0 true) ()).2
      (by decide) rfl⟩

/-- C3: at end of stream the split index is the full buffer length; with
no line-feed byte in the buffer the handler returns with the state fully
unchanged (nothing consumed, no callback invoked); otherwise the split
index is one past the position of the last line-feed byte. -/
theorem split_index_spec (capture : Bool) (cb : StreamCallbacks σ ε)
    (st : ExecState σ ε) (is_out : Bool) :
    (splitIdx true (if is_out then st.outBuf else st.errBuf) =
      some (if is_out then st.outBuf else st.errBuf).length) ∧
    (10 ∉ (if is_out then st.outBuf else st.errBuf) →
      handleChunk capture cb st is_out false = st) ∧
    (10 ∈ (if is_out then st.outBuf else st.errBuf) →
      ∃ i, splitIdx false (if is_out then st.outBuf else st.errBuf) = some (i + 1) ∧
        (if is_out then st.outBuf else st.errBuf).get? i = some 10 ∧
        ∀ j, i < j → (if is_out then st.outBuf else st.errBuf).get? j ≠ some 10) := by
  refine ⟨rfl, ?_, ?_⟩
  · intro hno
    have hr : rposition (fun b => b == 10)
        (if is_out then st.outBuf else st.errBuf) = none := by
      refine (rposition_none_iff _ _).mpr ?_
      intro b hb
      cases hbe : b == 10 with
      | false => rfl
      | true =>
        have hb10 : b = 10 := eq_of_beq hbe
        rw [hb10] at hb
        exact absurd hb hno
    apply handleChunk_none
    simp [splitIdx, hr]
  · intro hmem
    obtain ⟨i, hi⟩ := rposition_eq_some_of_mem (fun b => b == 10) _ 10 hmem rfl
    obtain ⟨⟨b, hb, hpb⟩, hafter⟩ := rposition_some_spec _ _ i hi
    have hb10 : b = 10 := by simpa using hpb
    refine ⟨i, by simp [splitIdx, hi], by rw [← hb10]; exact hb, ?_⟩
    intro j hj hsome
    have := hafter j 10 hj hsome
    simp at this

theorem split_index_spec_witness :
    splitIdx true [97, 10, 98] = some 3 ∧
    handleChunk true cbAlwaysOk
        (ExecState.mk [97, 10, 98] [98, 99] [] [] () none []) false false =
      ExecState.mk [97, 10, 98] [98, 99] [] [] () none [] ∧
    (∃ i, splitIdx false [97, 10, 98] = some (i + 1) ∧
      ([97, 10, 98] : List Nat).get? i = some 10 ∧
      ∀ j, i < j → ([97, 10, 98] : List Nat).get? j ≠ some 10) :=
  ⟨(split_index_spec true cbAlwaysOk
      (ExecState.mk [97, 10, 98] [98, 99] [] [] () none []) true).1,
   (split_index_spec true cbAlwaysOk
      (ExecState.mk [97, 10, 98] [98, 99] [] [] () none []) false).2.1 (by decide),
   (split_index_spec true cbAlwaysOk
      (ExecState.mk [97, 10, 98] [98, 99] [] [] () none []) true).2.2 (by decide)⟩

/-- C10 (amended): every line handed to a callback contains no line feed:
the line feed of a terminator is stripped and, for a carriage-return
line-feed terminator, the carriage return immediately before it is
stripped too; a carriage return not directly followed by a line feed is
kept however, so a delivered line can still end in a carriage return. -/
theorem lines_no_terminator (capture : Bool) (cb : StreamCallbacks σ ε)
    (s0 : σ) (evs : List Ev) :
    ∀ x ∈ (runEvents capture cb s0 evs).trace, 10 ∉ x.2.1 := by
  have h := run_traceNoNl capture cb evs (initState s0)
    (by intro x hx; cases hx)
  rw [runEvents]
  exact h

theorem lines_no_terminator_witness : 10 ∉ ([97] : List Nat) :=
  lines_no_terminator true cbAlwaysOk () [Ev.mk true [97, 10] false]
    (true, [97], Except.ok ()) (by decide)

theorem line_trailing_cr_counterexample :
    (runEvents true cbAlwaysOk () [Ev.mk true [97, 13, 13, 10] false]).trace.map
        (fun x => x.2.1) = [[97, 13]] ∧
    ([97, 13] : List Nat).getLast? = some 13 := by
  decide

/-- C4 (amended): with capture enabled, no callback failure, well-formed
deliveries (no data after end of stream), and stream bytes free of
carriage returns, if the captured buffer of a stream ends with a line
terminator (or is empty) then the lines delivered to that stream's
callback, each rejoined with the line terminator, concatenate exactly to
the captured buffer — which then equals its own prefix through the last
terminator.  (With a carriage-return line-feed terminator in the data, or
a final chunk not ending in a line feed, the rejoined lines differ from
that prefix: see the counterexample.) -/
theorem lines_rejoin_amended (cb : StreamCallbacks σ ε) (s0 : σ)
    (evs : List Ev) (flag : Bool)
    (hwf : wfEvents evs = true)
    (hcr : ∀ e ∈ evs, 13 ∉ e.bytes)
    (hok : (runEvents true cb s0 evs).callback_error = none)
    (hend : endsNl (capOf flag (runEvents true cb s0 evs)) = true ∨
      capOf flag (runEvents true cb s0 evs) = []) :
    joinLines (linesOf flag (runEvents true cb s0 evs).trace) =
      capOf flag (runEvents true cb s0 evs) ∧
    prefixThroughLastNl (capOf flag (runEvents true cb s0 evs)) =
      capOf flag (runEvents true cb s0 evs) := by
  have heflag : eofLastB (streamEvs flag evs) = true := by
    rw [wfEvents, Bool.and_eq_true] at hwf
    cases flag with
    | true => exact hwf.1
    | false => exact hwf.2
  rw [runEvents] at hok hend ⊢
  have hmain := run_goodcap cb flag evs (initState s0) heflag hcr hok
    (by cases flag <;> intro hm <;> cases hm)
    (by cases flag <;> rfl)
    (by cases flag <;> exact Or.inl rfl)
  rcases hmain with ⟨hj, _⟩ | ⟨hne, hfalse⟩
  · refine ⟨hj, ?_⟩
    rcases hend with he | he
    · exact prefixThroughLastNl_of_endsNl _ he
    · rw [he]
      rfl
  · rcases hend with he | he
    · rw [he] at hfalse
      cases hfalse
    · exact absurd he hne

theorem lines_rejoin_amended_witness :
    joinLines (linesOf true (runEvents true cbAlwaysOk ()
        [Ev.mk true [97, 10, 98] false, Ev.mk true [99, 10] false,
         Ev.mk true [] true]).trace) =
      capOf true (runEvents true cbAlwaysOk ()
        [Ev.mk true [97, 10, 98] false, Ev.mk true [99, 10] false,
         Ev.mk true [] true]) ∧
    prefixThroughLastNl (capOf true (runEvents true cbAlwaysOk ()
        [Ev.mk true [97, 10, 98] false, Ev.mk true [99, 10] false,
         Ev.mk true [] true])) =
      capOf true (runEvents true cbAlwaysOk ()
        [Ev.mk true [97, 10, 98] false, Ev.mk true [99, 10] false,
         Ev.mk true [] true]) :=
  lines_rejoin_amended cbAlwaysOk ()
    [Ev.mk true [97, 10, 98] false, Ev.mk true [99, 10] false,
     Ev.mk true [] true] true
    (by decide) (by decide) (by decide) (Or.inl (by decide))

theorem lines_rejoin_counterexample :
    ((runEvents true cbAlwaysOk () [Ev.mk true [97, 13, 10] false]).callback_error =
        none ∧
      joinLines (linesOf true
          (runEvents true cbAlwaysOk () [Ev.mk true [97, 13, 10] false]).trace) ≠
        prefixThroughLastNl
          ((runEvents true cbAlwaysOk () [Ev.mk true [97, 13, 10] false]).stdout)) ∧
    ((runEvents true cbAlwaysOk () [Ev.mk true [97, 10, 98] true]).callback_error =
        none ∧
      (∀ e ∈ [Ev.mk true [97, 10, 98] true], 13 ∉ e.bytes) ∧
      wfEvents [Ev.mk true [97, 10, 98] true] = true ∧
      joinLines (linesOf true
          (runEvents true cbAlwaysOk () [Ev.mk true [97, 10, 98] true]).trace) ≠
        prefixThroughLastNl
          ((runEvents true cbAlwaysOk () [Ev.mk true [97, 10, 98] true]).stdout)) := by
  decide

theorem stepEv_capture_relation (cb : StreamCallbacks σ ε) (e : Ev)
    (ob eb sd se : List Nat) (cs : σ) (ce : Option ε)
    (tr : List (Bool × List Nat × Except ε Unit)) :
    (stepEv false cb (ExecState.mk ob eb [] [] cs ce tr) e).outBuf =
      (stepEv true cb (ExecState.mk ob eb sd se cs ce tr) e).outBuf ∧
    (stepEv false cb (ExecState.mk ob eb [] [] cs ce tr) e).errBuf =
      (stepEv true cb (ExecState.mk ob eb sd se cs ce tr) e).errBuf ∧
    (stepEv false cb (ExecState.mk ob eb [] [] cs ce tr) e).cbState =
      (stepEv true cb (ExecState.mk ob eb sd se cs ce tr) e).cbState ∧
    (stepEv false cb (ExecState.mk ob eb [] [] cs ce tr) e).callback_error =
      (stepEv true cb (ExecState.mk ob eb sd se cs ce tr) e).callback_error ∧
    (stepEv false cb (ExecState.mk ob eb [] [] cs ce tr) e).trace =
      (stepEv true cb (ExecState.mk ob eb sd se cs ce tr) e).trace ∧
    (stepEv false cb (ExecState.mk ob eb [] [] cs ce tr) e).stdout = [] ∧
    (stepEv false cb (ExecState.mk ob eb [] [] cs ce tr) e).stderr = [] := by
  rcases e with ⟨f, bytes, eof⟩
  cases f with
  | true =>
    cases hs : splitIdx eof (ob ++ bytes) with
    | none =>
      rw [show stepEv false cb (ExecState.mk ob eb [] [] cs ce tr)
            (Ev.mk true bytes eof) =
          handleChunk false cb (ExecState.mk (ob ++ bytes) eb [] [] cs ce tr)
            true eof from rfl,
        show stepEv true cb (ExecState.mk ob eb sd se cs ce tr)
            (Ev.mk true bytes eof) =
          handleChunk true cb (ExecState.mk (ob ++ bytes) eb sd se cs ce tr)
            true eof from rfl,
        handleChunk_none false cb _ true eof (by simpa using hs),
        handleChunk_none true cb _ true eof (by simpa using hs)]
      exact ⟨rfl, rfl, rfl, rfl, rfl, rfl, rfl⟩
    | some idx =>
      rw [show stepEv false cb (ExecState.mk ob eb [] [] cs ce tr)
            (Ev.mk true bytes eof) =
          handleChunk false cb (ExecState.mk (ob ++ bytes) eb [] [] cs ce tr)
            true eof from rfl,
        show stepEv true cb (ExecState.mk ob eb sd se cs ce tr)
            (Ev.mk true bytes eof) =
          handleChunk true cb (ExecState.mk (ob ++ bytes) eb sd se cs ce tr)
            true eof from rfl,
        handleChunk_some false cb _ true eof idx (by simpa using hs),
        handleChunk_some true cb _ true eof idx (by simpa using hs)]
      simp only [if_true, Bool.false_eq_true, if_false]
      obtain ⟨p1, p2, p3⟩ := dispatch_proj cb true
        (lossyLines (List.take idx (ob ++ bytes)))
        (ExecState.mk (ob ++ bytes) eb [] [] cs ce tr)
        (ExecState.mk (List.drop idx (ob ++ bytes)) eb
          (sd ++ List.take idx (ob ++ bytes)) se cs ce tr) rfl rfl rfl
      obtain ⟨ff1, ff2, ff3, ff4⟩ := dispatch_frame cb true
        (lossyLines (List.take idx (ob ++ bytes)))
        (ExecState.mk (ob ++ bytes) eb [] [] cs ce tr)
      obtain ⟨ft1, ft2, ft3, ft4⟩ := dispatch_frame cb true
        (lossyLines (List.take idx (ob ++ bytes)))
        (ExecState.mk (List.drop idx (ob ++ bytes)) eb
          (sd ++ List.take idx (ob ++ bytes)) se cs ce tr)
      exact ⟨ft1.symm, ff2.trans ft2.symm, p1, p2, p3, ff3, ff4⟩
  | false =>
    cases hs : splitIdx eof (eb ++ bytes) with
    | none =>
      rw [show stepEv false cb (ExecState.mk ob eb [] [] cs ce tr)
            (Ev.mk false bytes eof) =
          handleChunk false cb (ExecState.mk ob (eb ++ bytes) [] [] cs ce tr)
            false eof from rfl,
        show stepEv true cb (ExecState.mk ob eb sd se cs ce tr)
            (Ev.mk false bytes eof) =
          handleChunk true cb (ExecState.mk ob (eb ++ bytes) sd se cs ce tr)
            false eof from rfl,
        handleChunk_none false cb _ false eof (by simpa using hs),
        handleChunk_none true cb _ false eof (by simpa using hs)]
      exact ⟨rfl, rfl, rfl, rfl, rfl, rfl, rfl⟩
    | some idx =>
      rw [show stepEv false cb (ExecState.mk ob eb [] [] cs ce tr)
            (Ev.mk false bytes eof) =
          handleChunk false cb (ExecState.mk ob (eb ++ bytes) [] [] cs ce tr)
            false eof from rfl,
        show stepEv true cb (ExecState.mk ob eb sd se cs ce tr)
            (Ev.mk false bytes eof) =
          handleChunk true cb (ExecState.mk ob (eb ++ bytes) sd se cs ce tr)
            false eof from rfl,
        handleChunk_some false cb _ false eof idx (by simpa using hs),
        handleChunk_some true cb _ false eof idx (by simpa using hs)]
      simp only [if_true, Bool.false_eq_true, if_false]
      obtain ⟨p1, p2, p3⟩ := dispatch_proj cb false
        (lossyLines (List.take idx (eb ++ bytes)))
        (ExecState.mk ob (eb ++ bytes) [] [] cs ce tr)
        (ExecState.mk ob (List.drop idx (eb ++ bytes)) sd
          (se ++ List.take idx (eb ++ bytes)) cs ce tr) rfl rfl rfl
      obtain ⟨ff1, ff2, ff3, ff4⟩ := dispatch_frame cb false
        (lossyLines (List.take idx (eb ++ bytes)))
        (ExecState.mk ob (eb ++ bytes) [] [] cs ce tr)
      obtain ⟨ft1, ft2, ft3, ft4⟩ := dispatch_frame cb false
        (lossyLines (List.take idx (eb ++ bytes)))
        (ExecState.mk ob (List.drop idx (eb ++ bytes)) sd
          (se ++ List.take idx (eb ++ bytes)) cs ce tr)
      exact ⟨ff1.trans ft1.symm, ft2.symm, p1, p2, p3, ff3, ff4⟩

theorem run_capture_relation (cb : StreamCallbacks σ ε) :
    ∀ (evs : List Ev) (ob eb sd se : List Nat) (cs : σ) (ce : Option ε)
      (tr : List (Bool × List Nat × Except ε Unit)),
      (evs.foldl (stepEv false cb) (ExecState.mk ob eb [] [] cs ce tr)).outBuf =
        (evs.foldl (stepEv true cb) (ExecState.mk ob eb sd se cs ce tr)).outBuf ∧
      (evs.foldl (stepEv false cb) (ExecState.mk ob eb [] [] cs ce tr)).errBuf =
        (evs.foldl (stepEv true cb) (ExecState.mk ob eb sd se cs ce tr)).errBuf ∧
      (evs.foldl (stepEv false cb) (ExecState.mk ob eb [] [] cs ce tr)).cbState =
        (evs.foldl (stepEv true cb) (ExecState.mk ob eb sd se cs ce tr)).cbState ∧
      (evs.foldl (stepEv false cb) (ExecState.mk ob eb [] [] cs ce tr)).callback_error =
        (evs.foldl (stepEv true cb) (ExecState.mk ob eb sd se cs ce tr)).callback_error ∧
      (evs.foldl (stepEv false cb) (ExecState.mk ob eb [] [] cs ce tr)).trace =
        (evs.foldl (stepEv true cb) (ExecState.mk ob eb sd se cs ce tr)).trace ∧
      (evs.foldl (stepEv false cb) (ExecState.mk ob eb [] [] cs ce tr)).stdout = [] ∧
      (evs.foldl (stepEv false cb) (ExecState.mk ob eb [] [] cs ce tr)).stderr = [] := by
  intro evs
  induction evs with
  | nil =>
    intro ob eb sd se cs ce tr
    exact ⟨rfl, rfl, rfl, rfl, rfl, rfl, rfl⟩
  | cons e rest ih =>
    intro ob eb sd se cs ce tr
    rw [List.foldl_cons, List.foldl_cons]
    obtain ⟨h1, h2, h3, h4, h5, h6, h7⟩ :=
      stepEv_capture_relation cb e ob eb sd se cs ce tr
    have hF : stepEv false cb (ExecState.mk ob eb [] [] cs ce tr) e =
        ExecState.mk
          (stepEv true cb (ExecState.mk ob eb sd se cs ce tr) e).outBuf
          (stepEv true cb (ExecState.mk ob eb sd se cs ce tr) e).errBuf
          [] []
          (stepEv true cb (ExecState.mk ob eb sd se cs ce tr) e).cbState
          (stepEv true cb (ExecState.mk ob eb sd se cs ce tr) e).callback_error
          (stepEv true cb (ExecState.mk ob eb sd se cs ce tr) e).trace := by
      have heta : stepEv false cb (ExecState.mk ob eb [] [] cs ce tr) e =
          ExecState.mk
            (stepEv false cb (ExecState.mk ob eb [] [] cs ce tr) e).outBuf
            (stepEv false cb (ExecState.mk ob eb [] [] cs ce tr) e).errBuf
            (stepEv false cb (ExecState.mk ob eb [] [] cs ce tr) e).stdout
            (stepEv false cb (ExecState.mk ob eb [] [] cs ce tr) e).stderr
            (stepEv false cb (ExecState.mk ob eb [] [] cs ce tr) e).cbState
            (stepEv false cb (ExecState.mk ob eb [] [] cs ce tr) e).callback_error
            (stepEv false cb (ExecState.mk ob eb [] [] cs ce tr) e).trace := rfl
      rw [heta, h1, h2, h3, h4, h5, h6, h7]
    have happ := ih
      (stepEv true cb (ExecState.mk ob eb sd se cs ce tr) e).outBuf
      (stepEv true cb (ExecState.mk ob eb sd se cs ce tr) e).errBuf
      (stepEv true cb (ExecState.mk ob eb sd se cs ce tr) e).stdout
      (stepEv true cb (ExecState.mk ob eb sd se cs ce tr) e).stderr
      (stepEv true cb (ExecState.mk ob eb sd se cs ce tr) e).cbState
      (stepEv true cb (ExecState.mk ob eb sd se cs ce tr) e).callback_error
      (stepEv true cb (ExecState.mk ob eb sd se cs ce tr) e).trace
    rw [← hF] at happ
    have hTeta : ExecState.mk
        (stepEv true cb (ExecState.mk ob eb sd se cs ce tr) e).outBuf
        (stepEv true cb (ExecState.mk ob eb sd se cs ce tr) e).errBuf
        (stepEv true cb (ExecState.mk ob eb sd se cs ce tr) e).stdout
        (stepEv true cb (ExecState.mk ob eb sd se cs ce tr) e).stderr
        (stepEv true cb (ExecState.mk ob eb sd se cs ce tr) e).cbState
        (stepEv true cb (ExecState.mk ob eb sd se cs ce tr) e).callback_error
        (stepEv true cb (ExecState.mk ob eb sd se cs ce tr) e).trace =
        stepEv true cb (ExecState.mk ob eb sd se cs ce tr) e := rfl
    rw [hTeta] at happ
    exact happ

/-- C5 (amended): with capture disabled the capture buffers of the final
state stay empty, the callback invocations (stream, line, result) are
exactly those of the capturing execution on the same deliveries — so every
complete line is still delivered as long as no callback failure has been
recorded, while lines after a recorded failure are skipped just as when
capturing — and on every handler call that chooses a split index the
consumed range is removed from the working buffer, regardless of the
callback outcome. -/
theorem capture_off_spec (cb : StreamCallbacks σ ε) (s0 : σ) (evs : List Ev)
    (st : ExecState σ ε) (is_out eof : Bool) (idx : Nat) :
    (runEvents false cb s0 evs).stdout = [] ∧
    (runEvents false cb s0 evs).stderr = [] ∧
    (runEvents false cb s0 evs).trace = (runEvents true cb s0 evs).trace ∧
    (splitIdx eof (if is_out then st.outBuf else st.errBuf) = some idx →
      (if is_out then (handleChunk false cb st is_out eof).outBuf
       else (handleChunk false cb st is_out eof).errBuf) =
        (if is_out then st.outBuf else st.errBuf).drop idx) := by
  obtain ⟨_, _, _, _, h5, h6, h7⟩ :=
    run_capture_relation cb evs [] [] [] [] s0 none []
  refine ⟨h6, h7, h5, ?_⟩
  intro hs
  rw [handleChunk_some false cb st is_out eof idx hs]
  cases is_out with
  | true =>
    simp only [if_true, Bool.false_eq_true, if_false]
  | false =>
    simp only [if_true, Bool.false_eq_true, if_false]

theorem capture_off_spec_witness :
    (runEvents false cbAlwaysOk () [Ev.mk true [97, 10] false]).stdout = [] ∧
    (runEvents false cbAlwaysOk () [Ev.mk true [97, 10] false]).stderr = [] ∧
    (runEvents false cbAlwaysOk () [Ev.mk true [97, 10] false]).trace =
      (runEvents true cbAlwaysOk () [Ev.mk true [97, 10] false]).trace ∧
    (handleChunk false cbAlwaysErr
        (ExecState.mk [97, 10, 98] [98, 99] [] [] () none []) true false).outBuf =
      [98] :=
  ⟨(capture_off_spec cbAlwaysOk () [Ev.mk true [97, 10] false]
      (ExecState.mk [97, 10, 98] [98, 99] [] [] () none []) true false 2).1,
   (capture_off_spec cbAlwaysOk () [Ev.mk true [97, 10] false]
      (ExecState.mk [97, 10, 98] [98, 99] [] [] () none []) true false 2).2.1,
   (capture_off_spec cbAlwaysOk () [Ev.mk true [97, 10] false]
      (ExecState.mk [97, 10, 98] [98, 99] [] [] () none []) true false 2).2.2.1,
   (capture_off_spec cbAlwaysErr () [Ev.mk true [97, 10] false]
      (ExecState.mk [97, 10, 98] [98, 99] [] [] () none []) true false 2).2.2.2
      (by decide)⟩

theorem capture_off_delivery_counterexample :
    (runEvents false cbAlwaysErr () [Ev.mk true [97, 10, 98, 10] false]).trace.map
        (fun x => x.2.1) = [[97]] ∧
    lossyLines [97, 10, 98, 10] = [[97], [98]] := by
  decide

end Cargo
